import Mathlib

/-!
Verification development for the parquetjs columnar-format core:
schema model, Dremel-style shredder and assembler, row-group buffering
writer, and footer-validating reader, together with the benchmark
driver scripts (`benchmark.js`, `performance-comparison.js`).
-/

namespace Parquet

/-- Primitive (leaf) column types from the supported set. -/
inductive PrimType where
  | int32
  | int64
  | double
  | boolean
  | utf8
  | byteArray
deriving DecidableEq, Repr

/-- Field repetition: REQUIRED, OPTIONAL or REPEATED. -/
inductive Repetition where
  | required
  | optional
  | repeated
deriving DecidableEq, Repr

mutual

/-- A record value: null, a primitive, a list, or an object. -/
inductive RVal where
  | null
  | int (n : Int)
  | dbl (q : Rat)
  | bool (b : Bool)
  | str (s : String)
  | list (xs : RList)
  | obj (fs : RFields)
deriving DecidableEq, Repr

/-- A list of record values. -/
inductive RList where
  | nil
  | cons (x : RVal) (rest : RList)
deriving DecidableEq, Repr

/-- Named fields of an object record. -/
inductive RFields where
  | nil
  | cons (name : String) (x : RVal) (rest : RFields)
deriving DecidableEq, Repr

end

/-- One shredded entry for a leaf column: repetition level, definition
level, and the value (absent when the definition level is short). -/
structure Entry where
  rlvl : Nat
  dlvl : Nat
  val : Option RVal
deriving DecidableEq, Repr

mutual

/-- A built schema node: a primitive leaf, an OPTIONAL wrapper, a
REPEATED wrapper, or a struct of named fields. -/
inductive SNode where
  | leaf (t : PrimType)
  | opt (n : SNode)
  | rep (n : SNode)
  | struct (fields : SFields)
deriving DecidableEq, Repr

/-- Named children of a struct schema node. -/
inductive SFields where
  | nil
  | cons (name : String) (n : SNode) (rest : SFields)
deriving DecidableEq, Repr

end

/-- Names of the proper fields of a struct node. -/
def fieldNames : SFields → List String
  | .nil => []
  | .cons nm _ rest => nm :: fieldNames rest

/-- Boolean no-duplicates test on a list of names. -/
def nodupB : List String → Bool
  | [] => true
  | x :: xs => (!(xs.contains x)) && nodupB xs

mutual

/-- Modelled from the spec: `leafPaths()` of the Schema Model, the flat
ordered list of root-to-leaf dotted paths (canonical column order). -/
def leafPaths : SNode → List (List String)
  | .leaf _ => [[]]
  | .opt n => leafPaths n
  | .rep n => leafPaths n
  | .struct fs => leafPathsF fs

/-- Leaf paths contributed by a list of struct fields, in order. -/
def leafPathsF : SFields → List (List String)
  | .nil => []
  | .cons nm n rest => (leafPaths n).map (fun p => nm :: p) ++ leafPathsF rest

end

/-- The path of the first (leftmost) leaf below a node. -/
def firstLeaf : SNode → List String
  | .leaf _ => []
  | .opt n => firstLeaf n
  | .rep n => firstLeaf n
  | .struct .nil => []
  | .struct (.cons nm n _) => nm :: firstLeaf n

mutual

/-- Modelled from the spec: schema validity as checked by `build` —
names unique within a sibling scope and no zero-child struct. -/
def WF : SNode → Bool
  | .leaf _ => true
  | .opt n => WF n
  | .rep n => WF n
  | .struct .nil => false
  | .struct (.cons nm n rest) =>
      nodupB (fieldNames (.cons nm n rest)) && WFf (.cons nm n rest)

/-- Validity of every node in a field list. -/
def WFf : SFields → Bool
  | .nil => true
  | .cons _ n rest => WF n && WFf rest

end

/-- Does a record value match a primitive leaf type. -/
def primMatches : PrimType → RVal → Bool
  | .int32, .int _ => true
  | .int64, .int _ => true
  | .double, .dbl _ => true
  | .boolean, .bool _ => true
  | .utf8, .str _ => true
  | .byteArray, .str _ => true
  | _, _ => false

/-- Does every element of a record list satisfy the test. -/
def allRList (f : RVal → Bool) : RList → Bool
  | .nil => true
  | .cons x xs => f x && allRList f xs

mutual

/-- Modelled from the spec: schema conformance of a record value, the
precondition of the round-trip property. An OPTIONAL slot may be null,
a REPEATED slot holds a list, a struct slot holds an object with
exactly the declared fields in declaration order. -/
def conf : SNode → RVal → Bool
  | .leaf t, v => primMatches t v
  | .opt _, .null => true
  | .opt n, v => conf n v
  | .rep n, .list xs => allRList (fun x => conf n x) xs
  | .rep _, _ => false
  | .struct fs, .obj gs => confFields fs gs
  | .struct _, _ => false

/-- Conformance of an object's fields against the declared fields. -/
def confFields : SFields → RFields → Bool
  | .nil, .nil => true
  | .cons nm sn fr, .cons gm x gr => (nm == gm) && conf sn x && confFields fr gr
  | .nil, .cons _ _ _ => false
  | .cons _ _ _, .nil => false

end

/-- Conformance of every element of a repeated slot. -/
def confList (n : SNode) (xs : RList) : Bool :=
  allRList (fun x => conf n x) xs

/-- Look up a field of an object record by name (null when missing). -/
def lookupRF : RFields → String → RVal
  | .nil, _ => .null
  | .cons n x rest, nm => if n = nm then x else lookupRF rest nm

/-- The value a record supplies for a named child (null when the
record is not an object or lacks the field). -/
def lookupField (v : RVal) (nm : String) : RVal :=
  match v with
  | .obj gs => lookupRF gs nm
  | _ => .null

/-- Does the record value `v` supply, for each declared field in
order, exactly the value listed in `gs`. -/
def agreeRF : SFields → RFields → RVal → Bool
  | .nil, .nil, _ => true
  | .cons nm _ fr, .cons gm x gr, v =>
      (nm == gm) && decide (lookupField v nm = x) && agreeRF fr gr v
  | _, _, _ => false

/-- Modelled from the spec: the entries emitted for an absent/empty
subtree — exactly one (repetitionLevel, definitionLevel, absent) entry
per descendant leaf, at the levels of the nearest present ancestor. -/
def absentCols (pre : List String) (s : SNode) (r d : Nat) :
    List (List String × Entry) :=
  (leafPaths s).map (fun p => (pre ++ p, ⟨r, d, none⟩))

/-- Emits every element of a record list with the given per-element
shredding function, concatenating the emissions in order. -/
def shredElemsWith (f : RVal → List (List String × Entry)) :
    RList → List (List String × Entry)
  | .nil => []
  | .cons y ys => f y ++ shredElemsWith f ys

mutual

/-- Modelled from the spec: the Dremel-style Shredder (`shred`), absent
from src/. Walks the record against the schema tree carrying the
current repetition level `r`, definition level `d` and repetition
depth `rd`, emitting (path, entry) pairs in traversal order. -/
def shredNode (pre : List String) (s : SNode) (v : RVal) (r d rd : Nat) :
    List (List String × Entry) :=
  match s with
  | .leaf _ => [(pre, ⟨r, d, some v⟩)]
  | .opt n =>
    match v with
    | .null => absentCols pre n r d
    | _ => shredNode pre n v r (d + 1) rd
  | .rep n =>
    match v with
    | .list .nil => absentCols pre n r d
    | .list (.cons x xs) =>
        shredNode pre n x r (d + 1) (rd + 1) ++
          shredElemsWith (fun y => shredNode pre n y (rd + 1) (d + 1) (rd + 1)) xs
    | _ => absentCols pre n r d
  | .struct fs => shredFieldsGo pre fs v r d rd

/-- Shreds each declared field of a struct in declaration order. -/
def shredFieldsGo (pre : List String) (fs : SFields) (v : RVal) (r d rd : Nat) :
    List (List String × Entry) :=
  match fs with
  | .nil => []
  | .cons nm sn rest =>
      shredNode (pre ++ [nm]) sn (lookupField v nm) r d rd ++
        shredFieldsGo pre rest v r d rd

end

/-- Shreds the second and later elements of a repeated group; each
starts a new entry at the group's own repetition depth. -/
def shredElems (pre : List String) (n : SNode) (xs : RList) (d rd : Nat) :
    List (List String × Entry) :=
  shredElemsWith (fun y => shredNode pre n y rd d rd) xs

/-- Shreds one record at the top level of the schema. -/
def shredRecord (s : SNode) (v : RVal) : List (List String × Entry) :=
  shredNode [] s v 0 0 0

/-- The ordered sequence of entries a flat emission list holds for one
leaf column path. -/
def colOf : List (List String × Entry) → List String → List Entry
  | [], _ => []
  | (q, e) :: rest, p => if q = p then e :: colOf rest p else colOf rest p

/-- Per-column level/value streams, as consumed by the Assembler. -/
def Streams : Type := List String → List Entry

/-- Streams with every column empty. -/
def emptyStreams : Streams := fun _ => []

/-- Prepends a flat emission list onto the front of streams. -/
def addCols (l : List (List String × Entry)) (σ : Streams) : Streams :=
  fun p => colOf l p ++ σ p

/-- Consumes one entry from the named column. -/
def popAt (p : List String) (σ : Streams) : Streams :=
  fun q => if q = p then (σ q).tail else σ q

/-- Consumes one entry from each of the named columns. -/
def popAll : List (List String) → Streams → Streams
  | [], σ => σ
  | p :: ps, σ => popAll ps (popAt p σ)

/-- Reads further elements of a repeated group with the given
per-element reader while the next entry of the group's first leaf
column `fl` continues the group (repetition level above `rd`). -/
def assembleRepLoopWith (f : Streams → RVal × Streams) (fl : List String)
    (rd : Nat) : Nat → Streams → RList × Streams
  | 0, σ => (.nil, σ)
  | fuel0 + 1, σ =>
    match σ fl with
    | [] => (.nil, σ)
    | e :: _ =>
      if rd + 1 ≤ e.rlvl then
        let hd := f σ
        let tl := assembleRepLoopWith f fl rd fuel0 hd.2
        (.cons hd.1 tl.1, tl.2)
      else (.nil, σ)

mutual

/-- Modelled from the spec: the Assembler, absent from src/. Reads one
slot's worth of entries for node `s` from the per-column streams:
a value is materialized only where the definition level reaches the
current depth, nested repeated groups group consecutive entries whose
repetition level is at least the group's own depth. -/
def assembleNode (pre : List String) (s : SNode) (d rd : Nat) (σ : Streams) :
    RVal × Streams :=
  match s with
  | .leaf _ =>
    match σ pre with
    | [] => (.null, σ)
    | e :: _ => (e.val.getD .null, popAt pre σ)
  | .opt n =>
    match σ (pre ++ firstLeaf n) with
    | [] => (.null, σ)
    | e :: _ =>
      if d < e.dlvl then assembleNode pre n (d + 1) rd σ
      else (.null, popAll ((leafPaths n).map (fun p => pre ++ p)) σ)
  | .rep n =>
    match σ (pre ++ firstLeaf n) with
    | [] => (.list .nil, σ)
    | e :: _ =>
      if d < e.dlvl then
        let fuel := (σ (pre ++ firstLeaf n)).length
        let hd := assembleNode pre n (d + 1) (rd + 1) σ
        let tl := assembleRepLoopWith
          (fun σ2 => assembleNode pre n (d + 1) (rd + 1) σ2)
          (pre ++ firstLeaf n) rd fuel hd.2
        (.list (.cons hd.1 tl.1), tl.2)
      else (.list .nil, popAll ((leafPaths n).map (fun p => pre ++ p)) σ)
  | .struct fs =>
    let res := assembleFields pre fs d rd σ
    (.obj res.1, res.2)

/-- Reads each declared field of a struct in declaration order. -/
def assembleFields (pre : List String) (fs : SFields) (d rd : Nat)
    (σ : Streams) : RFields × Streams :=
  match fs with
  | .nil => (.nil, σ)
  | .cons nm sn rest =>
    let hd := assembleNode (pre ++ [nm]) sn d rd σ
    let tl := assembleFields pre rest d rd hd.2
    (.cons nm hd.1 tl.1, tl.2)

end

/-- Reads one whole record from the streams. -/
def readRecord (s : SNode) (σ : Streams) : RVal × Streams :=
  assembleNode [] s 0 0 σ

/-- Number of elements of a record list. -/
def lengthR : RList → Nat
  | .nil => 0
  | .cons _ xs => lengthR xs + 1

/-- The error taxonomy of the core. -/
inductive ParquetError where
  | invalidSchema
  | schemaMismatch
  | writerClosed
  | corruptFile
  | unsupportedFormat
deriving DecidableEq, Repr

mutual

/-- A user-supplied field type: a primitive or a nested field group. -/
inductive UType where
  | prim (t : PrimType)
  | group (fs : UFields)
deriving DecidableEq, Repr

/-- A user-supplied field tree: name, repetition and type per field. -/
inductive UFields where
  | nil
  | cons (name : String) (rep : Repetition) (t : UType) (rest : UFields)
deriving DecidableEq, Repr

end

/-- Wraps a built core node according to the field's repetition.
Modelled from the spec: a REPEATED field is encoded with an OPTIONAL
presence level above the REPEATED element level, which is what the
spec's scenario prescribes — an empty list shreds at one definition
level above an absent list, and a present element one level above
that. -/
def applyRep : Repetition → SNode → SNode
  | .required, n => n
  | .optional, n => .opt n
  | .repeated, n => .opt (.rep n)

mutual

/-- Builds the core schema node of a user type. -/
def buildCore : UType → SNode
  | .prim t => .leaf t
  | .group fs => .struct (buildFields fs)

/-- Builds the schema children of a user field list. -/
def buildFields : UFields → SFields
  | .nil => .nil
  | .cons nm rep t rest => .cons nm (applyRep rep (buildCore t)) (buildFields rest)

end

/-- Memoized per-leaf level data of a built Schema. -/
structure LeafInfo where
  path : List String
  rLevelMax : Nat
  dLevelMax : Nat
deriving DecidableEq, Repr

/-- A built Schema: the normalized node tree plus the flat leaf list
with levels computed once at construction. -/
structure Schema where
  root : SNode
  leaves : List LeafInfo
deriving DecidableEq, Repr

mutual

/-- Modelled from the spec: the single root-to-leaf walk done at
schema construction, accumulating the repetition and definition level
of every leaf column. -/
def collectLeaves : SNode → List String → Nat → Nat → List LeafInfo
  | .leaf _, pre, r, d => [⟨pre, r, d⟩]
  | .opt n, pre, r, d => collectLeaves n pre r (d + 1)
  | .rep n, pre, r, d => collectLeaves n pre (r + 1) (d + 1)
  | .struct fs, pre, r, d => collectLeavesF fs pre r d

/-- Leaf data contributed by a list of struct fields, in order. -/
def collectLeavesF : SFields → List String → Nat → Nat → List LeafInfo
  | .nil, _, _, _ => []
  | .cons nm n rest, pre, r, d =>
      collectLeaves n (pre ++ [nm]) r d ++ collectLeavesF rest pre r d

end

/-- Modelled from the spec: `build(fieldTree) -> Schema |
InvalidSchemaError`. Validates sibling-name uniqueness and no
zero-child struct, then memoizes the per-leaf maxima. -/
def build (u : UFields) : Except ParquetError Schema :=
  let root : SNode := .struct (buildFields u)
  if WF root then .ok ⟨root, collectLeaves root [] 0 0⟩
  else .error .invalidSchema

/-- Memoized query: the maximum repetition level of a leaf column,
read back from the leaf list computed at construction. -/
def maxRepetitionLevel (sch : Schema) (p : List String) : Nat :=
  ((sch.leaves.find? (fun li => li.path == p)).map (fun li => li.rLevelMax)).getD 0

/-- Memoized query: the maximum definition level of a leaf column,
read back from the leaf list computed at construction. -/
def maxDefinitionLevel (sch : Schema) (p : List String) : Nat :=
  ((sch.leaves.find? (fun li => li.path == p)).map (fun li => li.dLevelMax)).getD 0

mutual

/-- The number of REPEATED ancestors crossed on the root-to-leaf walk
that resolves a leaf path — the spec's definition of the leaf's
maximum repetition level. -/
def countRepOnPath : SNode → List String → Nat
  | .leaf _, _ => 0
  | .opt n, p => countRepOnPath n p
  | .rep n, p => countRepOnPath n p + 1
  | .struct _, [] => 0
  | .struct fs, nm :: p => countRepOnPathF fs nm p

/-- Resolves the head path component among struct fields. -/
def countRepOnPathF : SFields → String → List String → Nat
  | .nil, _, _ => 0
  | .cons fn n rest, nm, p =>
      if fn = nm then countRepOnPath n p else countRepOnPathF rest nm p

end

mutual

/-- The number of OPTIONAL-or-REPEATED ancestors crossed on the
root-to-leaf walk that resolves a leaf path — the spec's definition of
the leaf's maximum definition level. -/
def countOptRepOnPath : SNode → List String → Nat
  | .leaf _, _ => 0
  | .opt n, p => countOptRepOnPath n p + 1
  | .rep n, p => countOptRepOnPath n p + 1
  | .struct _, [] => 0
  | .struct fs, nm :: p => countOptRepOnPathF fs nm p

/-- Resolves the head path component among struct fields. -/
def countOptRepOnPathF : SFields → String → List String → Nat
  | .nil, _, _ => 0
  | .cons fn n rest, nm, p =>
      if fn = nm then countOptRepOnPath n p else countOptRepOnPathF rest nm p

end

/-- Writer configuration: row-group seal thresholds and the byte-size
accounting supplied by the encoding collaborator. -/
structure WriterConfig where
  maxRows : Nat
  rowGroupSize : Nat
  entryBytes : Entry → Nat

/-- A sealed row group: the ordered entry sequence of every leaf
column (encoding and compression are external collaborators applied
per column to exactly these sequences). -/
structure RowGroup where
  cols : List (List String × List Entry)
deriving DecidableEq, Repr

/-- The Row-Group Writer state: per-column buffers in canonical leaf
order, running counts, sealed groups, the closed flag and the footer
(written once on close). -/
structure WriterState where
  cfg : WriterConfig
  schema : Schema
  buffer : List (List String × List Entry)
  rowCount : Nat
  bufBytes : Nat
  groups : List RowGroup
  closed : Bool
  footer : Option (List RowGroup)

/-- The entries buffered for one column (keyed association list). -/
def colsAt : List (List String × List Entry) → List String → List Entry
  | [], _ => []
  | (q, es) :: rest, p => if q = p then es ++ colsAt rest p else colsAt rest p

/-- An empty per-column buffer in canonical leaf order. -/
def freshBuffer (sch : Schema) : List (List String × List Entry) :=
  sch.leaves.map (fun li => (li.path, []))

/-- Appends one record's shredded entries to each column buffer. -/
def bufAppend (buf : List (List String × List Entry))
    (l : List (List String × Entry)) : List (List String × List Entry) :=
  buf.map (fun pe => (pe.1, pe.2 ++ colOf l pe.1))

/-- Total uncompressed byte size charged for an emission list. -/
def entriesBytes (cfg : WriterConfig) (l : List (List String × Entry)) : Nat :=
  (l.map (fun pe => cfg.entryBytes pe.2)).sum

/-- Modelled from the spec: a freshly opened writer. -/
def openWriter (cfg : WriterConfig) (sch : Schema) : WriterState :=
  ⟨cfg, sch, freshBuffer sch, 0, 0, [], false, none⟩

/-- Modelled from the spec: sealing the in-progress row group — the
buffered column sequences become a sealed group and the buffer and
counts reset. -/
def sealRowGroup (st : WriterState) : WriterState :=
  { st with groups := st.groups ++ [⟨st.buffer⟩],
            buffer := freshBuffer st.schema, rowCount := 0, bufBytes := 0 }

/-- The seal policy: row count reached maxRows or buffered bytes
reached the configured row-group size. -/
def sealNeeded (st : WriterState) : Bool :=
  st.cfg.maxRows ≤ st.rowCount || st.cfg.rowGroupSize ≤ st.bufBytes

/-- Seals the in-progress row group exactly when a threshold is
crossed, otherwise leaves the state unchanged. -/
def sealCheck (st : WriterState) : WriterState :=
  if sealNeeded st then sealRowGroup st else st

/-- Buffers one shredded record into the writer state. -/
def bufferRecord (st : WriterState) (v : RVal) : WriterState :=
  { st with buffer := bufAppend st.buffer (shredRecord st.schema.root v),
            rowCount := st.rowCount + 1,
            bufBytes := st.bufBytes +
              entriesBytes st.cfg (shredRecord st.schema.root v) }

/-- The per-record append work: schema check, shred, buffer, then seal
when a threshold is crossed — everything `append` does except the
closed-writer check. -/
def appendRowCore (st : WriterState) (v : RVal) :
    Except ParquetError WriterState :=
  if conf st.schema.root v then .ok (sealCheck (bufferRecord st v))
  else .error .schemaMismatch

/-- Modelled from the spec: `append(record)` of the Row-Group Writer,
absent from src/. Fails with WriterClosedError after close and with
SchemaMismatchError on a non-conformant record. -/
def appendRow (st : WriterState) (v : RVal) : Except ParquetError WriterState :=
  if st.closed then .error .writerClosed else appendRowCore st v

/-- Sequentially appends a batch of records record by record. -/
def appendRowsGo (st : WriterState) (rs : List RVal) :
    Except ParquetError WriterState :=
  match rs with
  | [] => .ok st
  | r :: rest => (appendRowCore st r).bind (fun st1 => appendRowsGo st1 rest)

/-- Modelled from the spec: `appendBatch`/`appendRows`, absent from
src/ — one closed-writer check (the amortized lock acquisition), then
the batch is processed as one sequential unit, record by record. -/
def appendRows (st : WriterState) (rs : List RVal) :
    Except ParquetError WriterState :=
  if st.closed then .error .writerClosed else appendRowsGo st rs

/-- N sequential `append` calls threaded through Except. -/
def seqAppend (rs : List RVal) (st : WriterState) :
    Except ParquetError WriterState :=
  match rs with
  | [] => .ok st
  | r :: rest => (appendRow st r).bind (fun st1 => seqAppend rest st1)

/-- Modelled from the spec: closing the writer — a no-op when already
closed, otherwise the in-progress non-empty row group is sealed and
then the footer (the sealed row-group metadata) is written. -/
def closeWriter (st : WriterState) : WriterState :=
  if st.closed then st
  else
    let st1 := if st.rowCount ≠ 0 then sealRowGroup st else st
    { st1 with closed := true, footer := some st1.groups }

/-- Total entries a writer holds for a column: sealed groups plus the
in-progress buffer. -/
def totalEntries (st : WriterState) (p : List String) : Nat :=
  (st.groups.map (fun g => (colsAt g.cols p).length)).sum +
    (colsAt st.buffer p).length

/-- Entries for a column across the sealed row groups only. -/
def sealedEntries (st : WriterState) (p : List String) : Nat :=
  (st.groups.map (fun g => (colsAt g.cols p).length)).sum

/-- The file magic bytes "PAR1". -/
def MAGIC : List Nat := [80, 65, 82, 49]

/-- Little-endian 32-bit length encoding. -/
def u32enc (n : Nat) : List Nat :=
  [n % 256, n / 256 % 256, n / 65536 % 256, n / 16777216 % 256]

/-- Little-endian 32-bit length decoding. -/
def u32dec : List Nat → Nat
  | [a, b, c, d] => a + 256 * b + 65536 * c + 16777216 * d
  | _ => 0

/-- Modelled from the spec: the file layout — magic header, column
chunk data, footer bytes, footer length, magic trailer; the footer is
written last. -/
def layoutFile (data : List Nat) (footerBytes : List Nat) : List Nat :=
  MAGIC ++ data ++ footerBytes ++ u32enc footerBytes.length ++ MAGIC

/-- An opened Reader: the validated footer bytes and source length. -/
structure Reader where
  footerBytes : List Nat
  srcLen : Nat
deriving DecidableEq, Repr

/-- Does the byte source end in a complete footer block: magic
trailer, in-range footer length, and header room before the footer. -/
def hasCompleteFooter (t : List Nat) : Bool :=
  decide (12 ≤ t.length) &&
  decide (t.drop (t.length - 4) = MAGIC) &&
  decide (u32dec ((t.drop (t.length - 8)).take 4) + 12 ≤ t.length)

/-- Modelled from the spec: `open(source) -> Reader | CorruptFileError`
of the Column Cursor / Reader, absent from src/. Validates the magic
header, the magic trailer, and that the declared footer fits between
header and trailer, then reads the footer bytes back. -/
def openFile (t : List Nat) : Except ParquetError Reader :=
  if t.length < 12 then .error .corruptFile
  else if t.take 4 ≠ MAGIC then .error .corruptFile
  else if t.drop (t.length - 4) ≠ MAGIC then .error .corruptFile
  else
    let L := u32dec ((t.drop (t.length - 8)).take 4)
    if t.length < L + 12 then .error .corruptFile
    else .ok ⟨(t.drop (t.length - 8 - L)).take L, t.length⟩

/-- The batch size of `benchmark-optimized.js`. -/
def BATCH_SIZE : Nat := 100

/-- JavaScript `rows.slice(i, j)`. -/
def sliceJS (rows : List RVal) (i j : Nat) : List RVal :=
  (rows.drop i).take (j - i)

/-- The batching loop of `benchmarkWriteOptimized`
(`performance-comparison.js`): `for (let i = 0; i < rows.length;
i += BATCH_SIZE) { const batch = rows.slice(i, i + BATCH_SIZE); ... }`. -/
def batchLoop (rows : List RVal) (i : Nat) : List (List RVal) :=
  if i < rows.length then
    sliceJS rows i (i + BATCH_SIZE) :: batchLoop rows (i + BATCH_SIZE)
  else []
termination_by rows.length - i
decreasing_by simp [BATCH_SIZE]; omega

/-- JavaScript truthiness of a record value, as tested by the `while
((record = await cursor.next()))` condition in `benchmark.js`. -/
def truthy : RVal → Bool
  | .null => false
  | .bool b => b
  | .int n => decide (n ≠ 0)
  | .dbl q => decide (q ≠ 0)
  | .str s => decide (s ≠ "")
  | .list _ => true
  | .obj _ => true

/-- The read-and-count loop of `benchmarkRead` (`benchmark.js`): the
cursor yields the given records and then an undefined (falsy)
end-of-stream value; the loop counts until the first falsy result. -/
def benchmarkReadLoop : List RVal → Nat
  | [] => 0
  | r :: rest => if truthy r then benchmarkReadLoop rest + 1 else 0

/-- The built node tree of the scenario schema
`{id: INT64, tags: repeated UTF8}`. -/
def demoRoot : SNode :=
  .struct (.cons "id" (.leaf .int64)
    (.cons "tags" (.opt (.rep (.leaf .utf8))) .nil))

/-- The built scenario Schema with its memoized leaf levels. -/
def demoSchema : Schema := ⟨demoRoot, collectLeaves demoRoot [] 0 0⟩

/-- The user field tree of the scenario schema. -/
def demoUser : UFields :=
  .cons "id" .required (.prim .int64)
    (.cons "tags" .repeated (.prim .utf8) .nil)

/-- A writer configuration with thresholds too large to trigger. -/
def demoCfg : WriterConfig := ⟨1000000, 1000000, fun _ => 1⟩

/-- The scenario record `{id: 1, tags: []}`. -/
def demoRec1 : RVal :=
  .obj (.cons "id" (.int 1) (.cons "tags" (.list .nil) .nil))

/-- The scenario record `{id: 2, tags: ["a", "b"]}`. -/
def demoRec2 : RVal :=
  .obj (.cons "id" (.int 2)
    (.cons "tags" (.list (.cons (.str "a") (.cons (.str "b") .nil))) .nil))

/-- Concrete column-chunk data bytes for the truncation scenario. -/
def demoData : List Nat := [1, 2, 3, 4, 5, 6, 7, 8]

/-- Concrete footer bytes for the truncation scenario. -/
def demoFooterBytes : List Nat := [9, 9, 9]

/-- A complete well-formed file for the truncation scenario. -/
def demoFile : List Nat := layoutFile demoData demoFooterBytes

deriving instance DecidableEq for Except

end Parquet

namespace Parquet

theorem colOf_append (a b : List (List String × Entry)) (p : List String) :
    colOf (a ++ b) p = colOf a p ++ colOf b p := by
  induction a with
  | nil => simp [colOf]
  | cons hd tl ih =>
    obtain ⟨q, e⟩ := hd
    by_cases h : q = p <;> simp [colOf, h, ih]

theorem colOf_const_map_not_mem (ps : List (List String))
    (pre p : List String) (e : Entry) (hp : p ∉ ps) :
    colOf (ps.map (fun q => (pre ++ q, e))) (pre ++ p) = [] := by
  induction ps with
  | nil => simp [colOf]
  | cons q qs ih =>
    have hqp : q ≠ p := fun hc => hp (by simp [hc])
    have hne : ¬(pre ++ q = pre ++ p) := fun hc => hqp (List.append_cancel_left hc)
    simp only [List.map_cons, colOf, hne, if_false]
    exact ih (fun hc => hp (by simp [hc]))

theorem colOf_const_map_nodup (ps : List (List String))
    (pre p : List String) (e : Entry) (hp : p ∈ ps) (hnd : ps.Nodup) :
    colOf (ps.map (fun q => (pre ++ q, e))) (pre ++ p) = [e] := by
  induction ps with
  | nil => simp at hp
  | cons q qs ih =>
    by_cases h : q = p
    · subst h
      have hq : q ∉ qs := (List.nodup_cons.mp hnd).1
      simp only [List.map_cons, colOf, if_true]
      rw [colOf_const_map_not_mem qs pre q e hq]
    · have hne : ¬(pre ++ q = pre ++ p) := fun hc => h (List.append_cancel_left hc)
      simp only [List.map_cons, colOf, hne, if_false]
      have hp2 : p ∈ qs := by
        rcases List.mem_cons.mp hp with hc | hc
        · exact absurd hc.symm h
        · exact hc
      exact ih hp2 (List.nodup_cons.mp hnd).2

theorem colOf_absentCols (s : SNode) (pre p : List String) (r d : Nat)
    (hp : p ∈ leafPaths s) (hnd : (leafPaths s).Nodup) :
    colOf (absentCols pre s r d) (pre ++ p) = [⟨r, d, none⟩] :=
  colOf_const_map_nodup (leafPaths s) pre p _ hp hnd

theorem leafPathsF_shape (fs : SFields) (p : List String)
    (hp : p ∈ leafPathsF fs) :
    ∃ nm q, p = nm :: q ∧ nm ∈ fieldNames fs := by
  match fs with
  | .nil => simp [leafPathsF] at hp
  | .cons nm n rest =>
    rw [leafPathsF, List.mem_append] at hp
    rcases hp with hp | hp
    · obtain ⟨q, _, hq⟩ := List.mem_map.mp hp
      exact ⟨nm, q, hq.symm, by simp [fieldNames]⟩
    · obtain ⟨nm2, q, hq, hmem⟩ := leafPathsF_shape rest p hp
      exact ⟨nm2, q, hq, by simp [fieldNames, hmem]⟩

mutual

theorem leafPaths_nodup (s : SNode) (h : WF s = true) : (leafPaths s).Nodup := by
  match s with
  | .leaf t => simp [leafPaths]
  | .opt n => exact leafPaths_nodup n (by simpa [WF] using h)
  | .rep n => exact leafPaths_nodup n (by simpa [WF] using h)
  | .struct .nil => simp [WF] at h
  | .struct (.cons nm n rest) =>
    rw [WF, Bool.and_eq_true] at h
    exact leafPathsF_nodup (.cons nm n rest) h.2 h.1

theorem leafPathsF_nodup (fs : SFields) (h1 : WFf fs = true)
    (h2 : nodupB (fieldNames fs) = true) : (leafPathsF fs).Nodup := by
  match fs with
  | .nil => simp [leafPathsF]
  | .cons nm n rest =>
    rw [WFf, Bool.and_eq_true] at h1
    rw [fieldNames, nodupB, Bool.and_eq_true] at h2
    rw [leafPathsF, List.nodup_append]
    refine ⟨?_, ?_, ?_⟩
    · exact (leafPaths_nodup n h1.1).map
        (fun p q hpq => by simpa using congrArg List.tail hpq)
    · exact leafPathsF_nodup rest h1.2 h2.2
    · intro p hp hp2
      obtain ⟨q, _, hq⟩ := List.mem_map.mp hp
      obtain ⟨nm2, q2, hq2, hmem2⟩ := leafPathsF_shape rest p hp2
      rw [← hq] at hq2
      have : nm = nm2 := (List.cons.injEq _ _ _ _ ▸ hq2).1
      rw [Bool.not_eq_true'] at h2
      have hcontains := h2.1
      rw [this] at hcontains
      simp [List.contains_eq_any_beq] at hcontains
      exact hcontains hmem2

end

theorem batchLoop_flatten (rows : List RVal) (i : Nat) :
    (batchLoop rows i).flatten = rows.drop i := by
  rw [batchLoop]
  split
  · rename_i h
    rw [List.flatten_cons, batchLoop_flatten rows (i + BATCH_SIZE)]
    have hdd : rows.drop (i + BATCH_SIZE) = (rows.drop i).drop BATCH_SIZE := by
      rw [List.drop_drop]
    rw [hdd, sliceJS]
    have : i + BATCH_SIZE - i = BATCH_SIZE := by omega
    rw [this, List.take_append_drop]
  · rename_i h
    have : rows.length ≤ i := by omega
    simp [List.drop_eq_nil_of_le this]
termination_by rows.length - i
decreasing_by simp [BATCH_SIZE]; omega

/-- C9: in `benchmarkWriteOptimized`, the batched path partitions the
rows array into consecutive `slice(i, i + BATCH_SIZE)` slices whose
concatenation equals the original array, for any length, so every row
is passed to `appendRows` exactly once in original order — the same
sequence, in the same order, that the fallback path passes to
`appendRow` one by one. -/
theorem claim_C9_batching_partitions_rows (rows : List RVal) :
    (batchLoop rows 0).flatten = rows := by
  simpa using batchLoop_flatten rows 0

/-- C10: the `benchmarkRead` loop stops at the first falsy value the
cursor yields and returns the number of truthy records before it; in
particular a falsy record inside the stream ends the loop early and is
not counted. -/
theorem claim_C10_read_loop_counts_truthy_prefix :
    (∀ rs : List RVal, benchmarkReadLoop rs = (rs.takeWhile truthy).length) ∧
    (∀ (rs1 : List RVal) (r : RVal) (rs2 : List RVal),
      (∀ x ∈ rs1, truthy x = true) → truthy r = false →
      benchmarkReadLoop (rs1 ++ r :: rs2) = rs1.length) := by
  constructor
  · intro rs
    induction rs with
    | nil => simp [benchmarkReadLoop]
    | cons r rest ih =>
      by_cases h : truthy r <;> simp [benchmarkReadLoop, h, ih, List.takeWhile_cons]
  · intro rs1 r rs2 h1 h2
    induction rs1 with
    | nil => simp [benchmarkReadLoop, h2]
    | cons x xs ih =>
      have hx : truthy x = true := h1 x (by simp)
      simp only [List.cons_append, benchmarkReadLoop, hx, if_true, List.append_eq]
      rw [ih (fun y hy => h1 y (by simp [hy]))]
      simp

/-- C10 witness: a falsy (null) record in the middle of the stream
ends the count at the records before it. -/
theorem claim_C10_witness :
    benchmarkReadLoop [.obj .nil, .null, .obj .nil] = 1 := by
  have h := claim_C10_read_loop_counts_truthy_prefix.2
    [.obj .nil] .null [.obj .nil] (by decide) (by decide)
  simpa using h

/-- C2: appending `{id:1, tags:[]}` then `{id:2, tags:["a","b"]}` to a
writer over `{id: INT64, tags: repeated UTF8}` buffers exactly the 3
entries (0,1,absent), (0,2,"a"), (1,2,"b") in column `tags`; assembling
the buffered columns reproduces both records exactly; and in general
an empty list at a REPEATED node shreds to exactly one absent entry
per descendant leaf, never zero. -/
theorem claim_C2_scenario_and_empty_list :
    (((seqAppend [demoRec1, demoRec2] (openWriter demoCfg demoSchema)).toOption.map
      (fun st => colsAt st.buffer ["tags"])) =
      some [⟨0, 1, none⟩, ⟨0, 2, some (.str "a")⟩, ⟨1, 2, some (.str "b")⟩]) ∧
    (((seqAppend [demoRec1, demoRec2] (openWriter demoCfg demoSchema)).toOption.map
      (fun st =>
        ((readRecord demoSchema.root (fun p => colsAt st.buffer p)).1,
         (readRecord demoSchema.root
           (readRecord demoSchema.root (fun p => colsAt st.buffer p)).2).1))) =
      some (demoRec1, demoRec2)) ∧
    (∀ (n : SNode) (pre : List String) (r d rd : Nat) (p : List String),
      WF n = true → p ∈ leafPaths n →
      (colOf (shredNode pre (.rep n) (.list .nil) r d rd) (pre ++ p)).length = 1) := by
  refine ⟨by decide, by decide, ?_⟩
  intro n pre r d rd p hwf hp
  have hs : shredNode pre (.rep n) (.list .nil) r d rd = absentCols pre n r d := rfl
  rw [hs, colOf_absentCols n pre p r d hp (leafPaths_nodup n hwf)]
  rfl

/-- C2 witness: the general empty-list rule applied to a single UTF8
leaf under a REPEATED node. -/
theorem claim_C2_witness :
    (colOf (shredNode [] (.rep (.leaf .utf8)) (.list .nil) 0 1 0)
      ([] ++ [])).length = 1 :=
  claim_C2_scenario_and_empty_list.2.2 (.leaf .utf8) [] 0 1 0 []
    (by decide) (by decide)

/-- C6: closing a writer twice yields the same state (hence the same
footer) as closing it once; any append attempted on a closed writer
fails with WriterClosedError; and closing a writer with a non-empty
in-progress row group seals it, so the footer written on close
contains it as the last row group. -/
theorem claim_C6_idempotent_close :
    (∀ st, closeWriter (closeWriter st) = closeWriter st) ∧
    (∀ st v, st.closed = true → appendRow st v = .error .writerClosed) ∧
    (∀ st rs, st.closed = true → appendRows st rs = .error .writerClosed) ∧
    (∀ st, st.closed = false → st.rowCount ≠ 0 →
      (closeWriter st).footer = some (st.groups ++ [⟨st.buffer⟩]) ∧
      (closeWriter st).closed = true) := by
  refine ⟨?_, ?_, ?_, ?_⟩
  · intro st
    by_cases h : st.closed = true
    · simp [closeWriter, h]
    · simp only [Bool.not_eq_true] at h
      simp [closeWriter, h]
  · intro st v h
    simp [appendRow, h]
  · intro st rs h
    simp [appendRows, h]
  · intro st h h2
    simp [closeWriter, h, h2, sealRowGroup]

/-- C6 witness: a concrete closed writer rejects an append, a second
close is a no-op, and the close of a one-record writer seals the
buffered group into the footer. -/
theorem claim_C6_witness :
    appendRow (closeWriter (openWriter demoCfg demoSchema)) demoRec1 =
      .error .writerClosed :=
  claim_C6_idempotent_close.2.1 _ demoRec1 (by decide)

/-- C8: `open` returns a Reader only for a byte source that ends in a
complete footer block (magic trailer, in-range footer length): any
source lacking one fails with CorruptFileError; in particular every
proper truncation of the modelled complete file that keeps at least
the magic header fails with CorruptFileError. -/
theorem claim_C8_truncated_open_fails :
    (∀ t : List Nat, hasCompleteFooter t = false →
      openFile t = .error .corruptFile) ∧
    (∀ k, k < demoFile.length - 4 →
      openFile (demoFile.take (k + 4)) = .error .corruptFile) := by
  constructor
  · intro t h
    rw [openFile]
    split_ifs with h1 h2 h3
    · rfl
    · rfl
    · rfl
    · rw [Classical.not_not] at h3
      have hL : t.length < u32dec ((t.drop (t.length - 8)).take 4) + 12 := by
        by_contra hc
        have ht : hasCompleteFooter t = true := by
          rw [hasCompleteFooter]
          simp only [Bool.and_eq_true, decide_eq_true_eq]
          exact ⟨⟨by omega, h3⟩, by omega⟩
        simp [ht] at h
      show (if t.length < u32dec ((t.drop (t.length - 8)).take 4) + 12 then
        (.error .corruptFile : Except ParquetError Reader) else _) = _
      rw [if_pos hL]
  · have h19 : demoFile.length - 4 = 19 := rfl
    simp only [h19]
    decide

/-- C8 witness: a concrete truncation ending inside the column data
fails to open. -/
theorem claim_C8_witness :
    openFile (demoFile.take (6 + 4)) = .error .corruptFile :=
  claim_C8_truncated_open_fails.2 6 (by decide)

theorem sealCheck_closed (st : WriterState) :
    (sealCheck st).closed = st.closed := by
  rw [sealCheck]
  split_ifs <;> rfl

theorem appendRowCore_closed (st st' : WriterState) (v : RVal)
    (h : appendRowCore st v = .ok st') : st'.closed = st.closed := by
  rw [appendRowCore] at h
  split_ifs at h with hc
  simp only [Except.ok.injEq] at h
  subst h
  rw [sealCheck_closed]
  rfl

theorem appendRowsGo_eq_seqAppend (rs : List RVal) (st : WriterState)
    (h : st.closed = false) : appendRowsGo st rs = seqAppend rs st := by
  induction rs generalizing st with
  | nil => rfl
  | cons r rest ih =>
    rw [appendRowsGo, seqAppend, appendRow, h]
    simp only [Bool.false_eq_true, if_false]
    cases hc : appendRowCore st r with
    | error e => rfl
    | ok st1 =>
      simp only [Except.bind]
      exact ih st1 ((appendRowCore_closed st st1 r hc).trans h)

/-- C5: on an open writer, `appendRows` (the batched appendBatch path)
returns exactly the state — per-column buffers, counts, sealed row
groups, hence the on-disk column bytes under any per-column codec —
that the same records produce through sequential `appendRow` calls in
the same order, with identical error outcomes. -/
theorem claim_C5_batch_equals_sequential (st : WriterState) (rs : List RVal)
    (h : st.closed = false) : appendRows st rs = seqAppend rs st := by
  rw [appendRows, h]
  simp only [Bool.false_eq_true, if_false]
  exact appendRowsGo_eq_seqAppend rs st h

/-- C5 witness: the batched and sequential appends of the two scenario
records agree on a fresh writer. -/
theorem claim_C5_witness :
    appendRows (openWriter demoCfg demoSchema) [demoRec1, demoRec2] =
      seqAppend [demoRec1, demoRec2] (openWriter demoCfg demoSchema) :=
  claim_C5_batch_equals_sequential (openWriter demoCfg demoSchema)
    [demoRec1, demoRec2] (by decide)

theorem find_path_unique (l : List LeafInfo) (li : LeafInfo)
    (hnd : (l.map (fun x => x.path)).Nodup) (h : li ∈ l) :
    l.find? (fun x => x.path == li.path) = some li := by
  induction l with
  | nil => simp at h
  | cons a l2 ih =>
    rcases List.mem_cons.mp h with rfl | h2
    · simp [List.find?]
    · have ha : a.path ≠ li.path := by
        intro hc
        apply (List.nodup_cons.mp hnd).1
        show a.path ∈ List.map (fun x => x.path) l2
        rw [hc]
        exact List.mem_map_of_mem (fun x => x.path) h2
      have hb : (a.path == li.path) = false := by simpa using ha
      simp only [List.find?, hb]
      exact ih (List.nodup_cons.mp hnd).2 h2

mutual

theorem collectLeaves_spec (s : SNode) (pre : List String) (r d : Nat)
    (hwf : WF s = true) :
    collectLeaves s pre r d = (leafPaths s).map
      (fun q => ⟨pre ++ q, r + countRepOnPath s q, d + countOptRepOnPath s q⟩) := by
  match s with
  | .leaf t => simp [collectLeaves, leafPaths, countRepOnPath, countOptRepOnPath]
  | .opt n =>
    rw [collectLeaves, leafPaths,
      collectLeaves_spec n pre r (d + 1) (by simpa [WF] using hwf)]
    refine List.map_congr_left (fun q _ => ?_)
    simp only [countRepOnPath, countOptRepOnPath]
    congr 1
    all_goals omega
  | .rep n =>
    rw [collectLeaves, leafPaths,
      collectLeaves_spec n pre (r + 1) (d + 1) (by simpa [WF] using hwf)]
    refine List.map_congr_left (fun q _ => ?_)
    simp only [countRepOnPath, countOptRepOnPath]
    congr 1
    all_goals omega
  | .struct .nil => simp [WF] at hwf
  | .struct (.cons nm n rest) =>
    rw [WF, Bool.and_eq_true] at hwf
    rw [collectLeaves, leafPaths,
      collectLeavesF_spec (.cons nm n rest) pre r d hwf.2 hwf.1]

theorem collectLeavesF_spec (fs : SFields) (pre : List String) (r d : Nat)
    (hwf : WFf fs = true) (hn : nodupB (fieldNames fs) = true) :
    collectLeavesF fs pre r d = (leafPathsF fs).map
      (fun q => ⟨pre ++ q, r + countRepOnPath (.struct fs) q,
        d + countOptRepOnPath (.struct fs) q⟩) := by
  match fs with
  | .nil => simp [collectLeavesF, leafPathsF]
  | .cons nm n rest =>
    rw [WFf, Bool.and_eq_true] at hwf
    rw [fieldNames, nodupB, Bool.and_eq_true] at hn
    rw [collectLeavesF, leafPathsF, List.map_append, List.map_map,
      collectLeaves_spec n (pre ++ [nm]) r d hwf.1,
      collectLeavesF_spec rest pre r d hwf.2 hn.2]
    congr 1
    · refine List.map_congr_left (fun q _ => ?_)
      simp [Function.comp_apply, countRepOnPath, countOptRepOnPath,
        countRepOnPathF, countOptRepOnPathF]
    · refine List.map_congr_left (fun q hq => ?_)
      obtain ⟨nm2, p2, rfl, hmem2⟩ := leafPathsF_shape rest q hq
      have hne : nm ≠ nm2 := by
        intro hc
        rw [Bool.not_eq_true'] at hn
        have := hn.1
        rw [hc] at this
        simp [List.contains_eq_any_beq] at this
        exact this hmem2
      simp [countRepOnPath, countOptRepOnPath, countRepOnPathF,
        countOptRepOnPathF, if_neg hne]

end

/-- C4: for every leaf of a built Schema, the memoized `rLevelMax` and
`dLevelMax` computed at construction equal the count of REPEATED,
respectively OPTIONAL-or-REPEATED, ancestors on the root-to-leaf path,
and the level queries return exactly those memoized values. -/
theorem claim_C4_levels_memoized (u : UFields) (sch : Schema)
    (hb : build u = .ok sch) :
    ∀ li ∈ sch.leaves,
      li.rLevelMax = countRepOnPath sch.root li.path ∧
      li.dLevelMax = countOptRepOnPath sch.root li.path ∧
      maxRepetitionLevel sch li.path = li.rLevelMax ∧
      maxDefinitionLevel sch li.path = li.dLevelMax := by
  rw [build] at hb
  split_ifs at hb with hwf
  simp only [Except.ok.injEq] at hb
  subst hb
  intro li hli
  rw [collectLeaves_spec _ [] 0 0 hwf] at hli
  have hpaths : (collectLeaves (SNode.struct (buildFields u)) [] 0 0).map
      (fun x => x.path) = leafPaths (.struct (buildFields u)) := by
    rw [collectLeaves_spec _ [] 0 0 hwf, List.map_map]
    refine (List.map_congr_left (fun q _ => ?_)).trans (List.map_id _)
    simp
  obtain ⟨q, hq, rfl⟩ := List.mem_map.mp hli
  refine ⟨by simp, by simp, ?_, ?_⟩
  · rw [maxRepetitionLevel, find_path_unique]
    · rfl
    · rw [hpaths]
      exact leafPaths_nodup _ hwf
    · rw [collectLeaves_spec _ [] 0 0 hwf]
      exact List.mem_map_of_mem _ hq
  · rw [maxDefinitionLevel, find_path_unique]
    · rfl
    · rw [hpaths]
      exact leafPaths_nodup _ hwf
    · rw [collectLeaves_spec _ [] 0 0 hwf]
      exact List.mem_map_of_mem _ hq

/-- C4 witness: the built scenario schema memoizes (rmax, dmax) = (1, 2)
for the `tags` leaf — one REPEATED and two OPTIONAL∪REPEATED ancestors
— and the queries return those values. -/
theorem claim_C4_witness :
    (⟨["tags"], 1, 2⟩ : LeafInfo).rLevelMax =
        countRepOnPath demoSchema.root ["tags"] ∧
      (⟨["tags"], 1, 2⟩ : LeafInfo).dLevelMax =
        countOptRepOnPath demoSchema.root ["tags"] ∧
      maxRepetitionLevel demoSchema ["tags"] = 1 ∧
      maxDefinitionLevel demoSchema ["tags"] = 2 :=
  claim_C4_levels_memoized demoUser demoSchema (by decide)
    ⟨["tags"], 1, 2⟩ (by decide)

theorem colsAt_not_mem (buf : List (List String × List Entry))
    (p : List String) (hp : p ∉ buf.map (fun pe => pe.1)) :
    colsAt buf p = [] := by
  induction buf with
  | nil => rfl
  | cons pe rest ih =>
    obtain ⟨q, es⟩ := pe
    have hqp : q ≠ p := fun hc => hp (by simp [hc])
    rw [colsAt, if_neg hqp]
    exact ih (fun hc => hp (by simp [hc]))

theorem colsAt_bufAppend (buf : List (List String × List Entry))
    (l : List (List String × Entry)) (p : List String)
    (hnd : (buf.map (fun pe => pe.1)).Nodup) :
    colsAt (bufAppend buf l) p = colsAt buf p ++
      (if p ∈ buf.map (fun pe => pe.1) then colOf l p else []) := by
  induction buf with
  | nil => simp [bufAppend, colsAt]
  | cons pe rest ih =>
    obtain ⟨q, es⟩ := pe
    rw [List.map_cons, List.nodup_cons] at hnd
    by_cases hqp : q = p
    · subst hqp
      have hrest : q ∉ rest.map (fun pe => pe.1) := hnd.1
      rw [bufAppend, List.map_cons, colsAt, if_pos rfl]
      have h1 : colsAt (bufAppend rest l) q = [] := by
        have := colsAt_not_mem (bufAppend rest l) q
          (by rw [bufAppend, List.map_map]; exact hrest)
        exact this
      rw [show (rest.map (fun pe => (pe.1, pe.2 ++ colOf l pe.1))) =
        bufAppend rest l from rfl, h1]
      rw [colsAt, if_pos rfl, colsAt_not_mem rest q hrest]
      simp
    · rw [bufAppend, List.map_cons, colsAt, if_neg hqp]
      rw [show (rest.map (fun pe => (pe.1, pe.2 ++ colOf l pe.1))) =
        bufAppend rest l from rfl]
      rw [ih hnd.2, colsAt, if_neg hqp]
      have hmem : (p ∈ q :: rest.map (fun pe => pe.1)) ↔
          (p ∈ rest.map (fun pe => pe.1)) := by
        simp [Ne.symm hqp]
      simp only [List.map_cons, hmem]

theorem colsAt_freshBuffer (sch : Schema) (p : List String) :
    colsAt (freshBuffer sch) p = [] := by
  rw [freshBuffer]
  induction sch.leaves with
  | nil => rfl
  | cons li rest ih =>
    rw [List.map_cons, colsAt]
    split_ifs <;> simpa

theorem bufAppend_keys (buf : List (List String × List Entry))
    (l : List (List String × Entry)) :
    (bufAppend buf l).map (fun pe => pe.1) = buf.map (fun pe => pe.1) := by
  rw [bufAppend, List.map_map]
  rfl

theorem freshBuffer_keys (sch : Schema) :
    (freshBuffer sch).map (fun pe => pe.1) = sch.leaves.map (fun li => li.path) := by
  rw [freshBuffer, List.map_map]
  rfl

theorem totalEntries_sealRowGroup (st : WriterState) (p : List String) :
    totalEntries (sealRowGroup st) p = totalEntries st p := by
  show ((st.groups ++ [(⟨st.buffer⟩ : RowGroup)]).map
      (fun (g : RowGroup) => (colsAt g.cols p).length)).sum +
      (colsAt (freshBuffer st.schema) p).length =
    (st.groups.map (fun g => (colsAt g.cols p).length)).sum +
      (colsAt st.buffer p).length
  rw [List.map_append, List.sum_append, colsAt_freshBuffer]
  show _ + ((colsAt st.buffer p).length + 0) + 0 = _
  omega

theorem build_root_wf (u : UFields) (sch : Schema) (hb : build u = .ok sch) :
    WF sch.root = true ∧ sch.leaves = collectLeaves sch.root [] 0 0 := by
  rw [build] at hb
  split_ifs at hb with hwf
  simp only [Except.ok.injEq] at hb
  subst hb
  exact ⟨hwf, rfl⟩

theorem build_leaf_paths (u : UFields) (sch : Schema) (hb : build u = .ok sch) :
    sch.leaves.map (fun li => li.path) = leafPaths sch.root := by
  obtain ⟨hwf, hl⟩ := build_root_wf u sch hb
  rw [hl, collectLeaves_spec _ [] 0 0 hwf, List.map_map]
  refine (List.map_congr_left (fun q _ => ?_)).trans (List.map_id _)
  simp

theorem appendRowCore_invariant (sch : Schema) (st st' : WriterState)
    (v : RVal) (p : List String)
    (hsc : st.schema = sch)
    (hkeys : st.buffer.map (fun pe => pe.1) = sch.leaves.map (fun li => li.path))
    (hnd : (sch.leaves.map (fun li => li.path)).Nodup)
    (hp : p ∈ sch.leaves.map (fun li => li.path))
    (hcl : st.closed = false)
    (_hzero : st.rowCount = 0 → colsAt st.buffer p = [])
    (h : appendRowCore st v = .ok st') :
    totalEntries st' p = totalEntries st p +
        (colOf (shredRecord sch.root v) p).length ∧
      st'.schema = sch ∧
      st'.buffer.map (fun pe => pe.1) = sch.leaves.map (fun li => li.path) ∧
      st'.closed = false ∧
      (st'.rowCount = 0 → colsAt st'.buffer p = []) := by
  rw [appendRowCore] at h
  split_ifs at h with hc
  simp only [Except.ok.injEq] at h
  subst h
  have hnd2 : (st.buffer.map (fun pe => pe.1)).Nodup := by
    rw [hkeys]; exact hnd
  have hmem : p ∈ st.buffer.map (fun pe => pe.1) := by
    rw [hkeys]; exact hp
  have hbuf : colsAt (bufAppend st.buffer (shredRecord st.schema.root v)) p =
      colsAt st.buffer p ++ colOf (shredRecord sch.root v) p := by
    rw [colsAt_bufAppend st.buffer _ p hnd2, if_pos hmem, hsc]
  have htot : totalEntries (bufferRecord st v) p =
      totalEntries st p + (colOf (shredRecord sch.root v) p).length := by
    show (st.groups.map (fun g => (colsAt g.cols p).length)).sum +
        (colsAt (bufAppend st.buffer (shredRecord st.schema.root v)) p).length =
      (st.groups.map (fun g => (colsAt g.cols p).length)).sum +
        (colsAt st.buffer p).length + (colOf (shredRecord sch.root v) p).length
    rw [hbuf, List.length_append]
    omega
  rw [sealCheck]
  split_ifs with hs
  · refine ⟨?_, hsc, ?_, hcl, fun _ => ?_⟩
    · rw [totalEntries_sealRowGroup]
      exact htot
    · show (freshBuffer st.schema).map (fun pe => pe.1) =
        sch.leaves.map (fun li => li.path)
      rw [hsc, freshBuffer_keys]
    · show colsAt (freshBuffer st.schema) p = []
      rw [hsc]
      exact colsAt_freshBuffer sch p
  · refine ⟨htot, hsc, ?_, hcl, ?_⟩
    · show (bufAppend st.buffer (shredRecord st.schema.root v)).map
        (fun pe => pe.1) = sch.leaves.map (fun li => li.path)
      rw [bufAppend_keys]
      exact hkeys
    · intro h0
      have h1 : st.rowCount + 1 = 0 := h0
      omega

theorem seqAppend_invariant (sch : Schema) (rs : List RVal)
    (st0 st : WriterState) (p : List String)
    (hsc : st0.schema = sch)
    (hkeys : st0.buffer.map (fun pe => pe.1) = sch.leaves.map (fun li => li.path))
    (hnd : (sch.leaves.map (fun li => li.path)).Nodup)
    (hp : p ∈ sch.leaves.map (fun li => li.path))
    (hcl : st0.closed = false)
    (hzero : st0.rowCount = 0 → colsAt st0.buffer p = [])
    (h : seqAppend rs st0 = .ok st) :
    totalEntries st p = totalEntries st0 p +
        (rs.map (fun r => (colOf (shredRecord sch.root r) p).length)).sum ∧
      st.schema = sch ∧ st.closed = false ∧
      (st.rowCount = 0 → colsAt st.buffer p = []) := by
  induction rs generalizing st0 with
  | nil =>
    rw [seqAppend] at h
    simp only [Except.ok.injEq] at h
    subst h
    exact ⟨by simp, hsc, hcl, hzero⟩
  | cons r rest ih =>
    rw [seqAppend, appendRow, hcl] at h
    simp only [Bool.false_eq_true, if_false] at h
    cases hcore : appendRowCore st0 r with
    | error e => rw [hcore] at h; exact absurd h (by simp [Except.bind])
    | ok st1 =>
      rw [hcore] at h
      simp only [Except.bind] at h
      obtain ⟨ht1, hsc1, hkeys1, hcl1, hz1⟩ :=
        appendRowCore_invariant sch st0 st1 r p hsc hkeys hnd hp hcl hzero hcore
      obtain ⟨ht2, hsc2, hcl2, hz2⟩ := ih st1 hsc1 hkeys1 hcl1 hz1 h
      refine ⟨?_, hsc2, hcl2, hz2⟩
      rw [ht2, ht1, List.map_cons, List.sum_cons]
      omega

/-- C7: (a) an `append` that makes the seal condition true — the row
count reaching maxRows or the buffered bytes reaching the configured
size — seals exactly one row group (groups grow by that one group, the
buffer and the row count reset) before the call returns, and an append
that does not trigger the condition seals nothing; (b) for every leaf
column of a writer opened on a built schema, the total entry count
across sealed row groups plus the in-progress buffer equals the total
number of entries the Shredder produced for that column, and after
close the sealed row groups alone carry that total. -/
theorem claim_C7_seal_policy_and_conservation :
    (∀ (st : WriterState) (v : RVal) (st' : WriterState),
      appendRow st v = .ok st' →
      (sealNeeded (bufferRecord st v) = true →
        st'.groups = st.groups ++ [⟨(bufferRecord st v).buffer⟩] ∧
        st'.rowCount = 0 ∧ st'.buffer = freshBuffer st.schema) ∧
      (sealNeeded (bufferRecord st v) = false →
        st'.groups = st.groups ∧ st'.rowCount = st.rowCount + 1)) ∧
    (∀ (u : UFields) (sch : Schema) (cfg : WriterConfig) (rs : List RVal)
      (st : WriterState) (p : List String),
      build u = .ok sch →
      seqAppend rs (openWriter cfg sch) = .ok st →
      p ∈ sch.leaves.map (fun li => li.path) →
      totalEntries st p =
        (rs.map (fun r => (colOf (shredRecord sch.root r) p).length)).sum ∧
      sealedEntries (closeWriter st) p =
        (rs.map (fun r => (colOf (shredRecord sch.root r) p).length)).sum) := by
  constructor
  · intro st v st' h
    rw [appendRow] at h
    split_ifs at h with hcl
    rw [appendRowCore] at h
    split_ifs at h with hc
    simp only [Except.ok.injEq] at h
    subst h
    constructor
    · intro hs
      rw [sealCheck, if_pos hs]
      exact ⟨rfl, rfl, rfl⟩
    · intro hs
      rw [sealCheck, if_neg (by simp [hs])]
      exact ⟨rfl, rfl⟩
  · intro u sch cfg rs st p hb hseq hp
    have hnd : (sch.leaves.map (fun li => li.path)).Nodup := by
      rw [build_leaf_paths u sch hb]
      exact leafPaths_nodup _ (build_root_wf u sch hb).1
    obtain ⟨htot, hsc, hcl, hz⟩ := seqAppend_invariant sch rs
      (openWriter cfg sch) st p rfl (freshBuffer_keys sch) hnd hp rfl
      (fun _ => colsAt_freshBuffer sch p) hseq
    have h0 : totalEntries (openWriter cfg sch) p = 0 := by
      rw [totalEntries, openWriter]
      simp [colsAt_freshBuffer]
    constructor
    · rw [htot, h0, Nat.zero_add]
    · have htot2 : (st.groups.map (fun g => (colsAt g.cols p).length)).sum +
          (colsAt st.buffer p).length =
          (rs.map (fun r => (colOf (shredRecord sch.root r) p).length)).sum := by
        have h3 : totalEntries st p =
            (rs.map (fun r => (colOf (shredRecord sch.root r) p).length)).sum := by
          rw [htot, h0, Nat.zero_add]
        exact h3
      rw [closeWriter, hcl]
      simp only [Bool.false_eq_true, if_false]
      by_cases hrc : st.rowCount ≠ 0
      · rw [if_pos hrc]
        show ((st.groups ++ [(⟨st.buffer⟩ : RowGroup)]).map
          (fun (g : RowGroup) => (colsAt g.cols p).length)).sum =
          (rs.map (fun r => (colOf (shredRecord sch.root r) p).length)).sum
        rw [List.map_append, List.sum_append]
        show _ + ((colsAt st.buffer p).length + 0) + 0 = _
        omega
      · rw [if_neg hrc]
        have hb0 : (colsAt st.buffer p).length = 0 := by
          rw [hz (by omega)]
          rfl
        show (st.groups.map (fun g => (colsAt g.cols p).length)).sum = _
        omega

/-- C7 witness: on the scenario writer an append below both thresholds
seals nothing and advances the row count. -/
theorem claim_C7_witness :
    (sealCheck (bufferRecord (openWriter demoCfg demoSchema) demoRec1)).groups =
        (openWriter demoCfg demoSchema).groups ∧
      (sealCheck (bufferRecord (openWriter demoCfg demoSchema) demoRec1)).rowCount =
        (openWriter demoCfg demoSchema).rowCount + 1 :=
  (claim_C7_seal_policy_and_conservation.1 (openWriter demoCfg demoSchema)
    demoRec1 (sealCheck (bufferRecord (openWriter demoCfg demoSchema) demoRec1))
    rfl).2 (by decide)

theorem mem_colOf (l : List (List String × Entry)) (p : List String)
    (e : Entry) (h : e ∈ colOf l p) : (p, e) ∈ l := by
  induction l with
  | nil => simp [colOf] at h
  | cons pe rest ih =>
    obtain ⟨q, e2⟩ := pe
    rw [colOf] at h
    split_ifs at h with hq
    · subst hq
      rcases List.mem_cons.mp h with rfl | h2
      · exact List.mem_cons_self _ _
      · exact List.mem_cons_of_mem _ (ih h2)
    · exact List.mem_cons_of_mem _ (ih h)

theorem mem_absentCols (pre : List String) (s : SNode) (r d : Nat)
    (pe : List String × Entry) (h : pe ∈ absentCols pre s r d) :
    ∃ q ∈ leafPaths s, pe = (pre ++ q, ⟨r, d, none⟩) := by
  rw [absentCols] at h
  obtain ⟨q, hq, rfl⟩ := List.mem_map.mp h
  exact ⟨q, hq, rfl⟩

theorem mem_shredElemsWith (f : RVal → List (List String × Entry))
    (xs : RList) (pe : List String × Entry) (h : pe ∈ shredElemsWith f xs) :
    ∃ y, pe ∈ f y := by
  match xs with
  | .nil => simp [shredElemsWith] at h
  | .cons y ys =>
    rw [shredElemsWith, List.mem_append] at h
    rcases h with h | h
    · exact ⟨y, h⟩
    · exact mem_shredElemsWith f ys pe h

mutual

theorem shred_levels (s : SNode) (v : RVal) (pre : List String) (r d rd : Nat)
    (hr : r ≤ rd) (hwf : WF s = true) (pe : List String × Entry)
    (hm : pe ∈ shredNode pre s v r d rd) :
    ∃ q ∈ leafPaths s, pe.1 = pre ++ q ∧
      pe.2.dlvl ≤ d + countOptRepOnPath s q ∧
      pe.2.rlvl ≤ rd + countRepOnPath s q := by
  match s with
  | .leaf t =>
    rw [shredNode, List.mem_singleton] at hm
    subst hm
    exact ⟨[], by simp [leafPaths], by simp, by
      simp [countOptRepOnPath], by simpa [countRepOnPath] using hr⟩
  | .opt n =>
    rw [WF] at hwf
    match v, hm with
    | .null, hm =>
      rw [show shredNode pre (SNode.opt n) RVal.null r d rd =
        absentCols pre n r d from rfl] at hm
      obtain ⟨q, hq, rfl⟩ := mem_absentCols pre n r d pe hm
      exact ⟨q, by simpa [leafPaths] using hq, rfl, by
        simp [countOptRepOnPath], by
        simp only [countRepOnPath]
        omega⟩
    | .int k, hm => exact shred_levels_opt n (.int k) pre r d rd hr hwf pe hm
    | .dbl k, hm => exact shred_levels_opt n (.dbl k) pre r d rd hr hwf pe hm
    | .bool b, hm => exact shred_levels_opt n (.bool b) pre r d rd hr hwf pe hm
    | .str t, hm => exact shred_levels_opt n (.str t) pre r d rd hr hwf pe hm
    | .list xs, hm => exact shred_levels_opt n (.list xs) pre r d rd hr hwf pe hm
    | .obj gs, hm => exact shred_levels_opt n (.obj gs) pre r d rd hr hwf pe hm
  | .rep n =>
    rw [WF] at hwf
    match v, hm with
    | .list .nil, hm =>
      rw [show shredNode pre (SNode.rep n) (RVal.list RList.nil) r d rd =
        absentCols pre n r d from rfl] at hm
      obtain ⟨q, hq, rfl⟩ := mem_absentCols pre n r d pe hm
      exact ⟨q, by simpa [leafPaths] using hq, rfl, by
        simp only [countOptRepOnPath]; omega, by
        simp only [countRepOnPath]; omega⟩
    | .list (.cons x xs), hm =>
      rw [show shredNode pre (SNode.rep n) (RVal.list (RList.cons x xs)) r d rd =
        shredNode pre n x r (d + 1) (rd + 1) ++
          shredElemsWith (fun y => shredNode pre n y (rd + 1) (d + 1) (rd + 1)) xs
        from rfl, List.mem_append] at hm
      have step : ∀ (y : RVal) (r2 : Nat), r2 ≤ rd + 1 →
          pe ∈ shredNode pre n y r2 (d + 1) (rd + 1) →
          ∃ q ∈ leafPaths (.rep n), pe.1 = pre ++ q ∧
            pe.2.dlvl ≤ d + countOptRepOnPath (.rep n) q ∧
            pe.2.rlvl ≤ rd + countRepOnPath (.rep n) q := by
        intro y r2 hr2 hy
        obtain ⟨q, hq, h1, h2, h3⟩ :=
          shred_levels n y pre r2 (d + 1) (rd + 1) hr2 hwf pe hy
        exact ⟨q, by simpa [leafPaths] using hq, h1, by
          simp only [countOptRepOnPath]; omega, by
          simp only [countRepOnPath]; omega⟩
      rcases hm with hm | hm
      · exact step x r (by omega) hm
      · obtain ⟨y, hy⟩ := mem_shredElemsWith _ xs pe hm
        exact step y (rd + 1) (by omega) hy
    | .null, hm =>
      rw [show shredNode pre (SNode.rep n) (RVal.null) r d rd =
        absentCols pre n r d from rfl] at hm
      obtain ⟨q, hq, rfl⟩ := mem_absentCols pre n r d pe hm
      exact ⟨q, by simpa [leafPaths] using hq, rfl, by
        simp only [countOptRepOnPath]; omega, by
        simp only [countRepOnPath]; omega⟩
    | .int k, hm =>
      rw [show shredNode pre (SNode.rep n) (RVal.int k) r d rd =
        absentCols pre n r d from rfl] at hm
      obtain ⟨q, hq, rfl⟩ := mem_absentCols pre n r d pe hm
      exact ⟨q, by simpa [leafPaths] using hq, rfl, by
        simp only [countOptRepOnPath]; omega, by
        simp only [countRepOnPath]; omega⟩
    | .dbl k, hm =>
      rw [show shredNode pre (SNode.rep n) (RVal.dbl k) r d rd =
        absentCols pre n r d from rfl] at hm
      obtain ⟨q, hq, rfl⟩ := mem_absentCols pre n r d pe hm
      exact ⟨q, by simpa [leafPaths] using hq, rfl, by
        simp only [countOptRepOnPath]; omega, by
        simp only [countRepOnPath]; omega⟩
    | .bool b, hm =>
      rw [show shredNode pre (SNode.rep n) (RVal.bool b) r d rd =
        absentCols pre n r d from rfl] at hm
      obtain ⟨q, hq, rfl⟩ := mem_absentCols pre n r d pe hm
      exact ⟨q, by simpa [leafPaths] using hq, rfl, by
        simp only [countOptRepOnPath]; omega, by
        simp only [countRepOnPath]; omega⟩
    | .str t, hm =>
      rw [show shredNode pre (SNode.rep n) (RVal.str t) r d rd =
        absentCols pre n r d from rfl] at hm
      obtain ⟨q, hq, rfl⟩ := mem_absentCols pre n r d pe hm
      exact ⟨q, by simpa [leafPaths] using hq, rfl, by
        simp only [countOptRepOnPath]; omega, by
        simp only [countRepOnPath]; omega⟩
    | .obj gs, hm =>
      rw [show shredNode pre (SNode.rep n) (RVal.obj gs) r d rd =
        absentCols pre n r d from rfl] at hm
      obtain ⟨q, hq, rfl⟩ := mem_absentCols pre n r d pe hm
      exact ⟨q, by simpa [leafPaths] using hq, rfl, by
        simp only [countOptRepOnPath]; omega, by
        simp only [countRepOnPath]; omega⟩
  | .struct .nil => simp [WF] at hwf
  | .struct (.cons nm n rest) =>
    rw [WF, Bool.and_eq_true] at hwf
    rw [shredNode] at hm
    obtain ⟨q, hq, h1, h2, h3⟩ := shred_levelsF (.cons nm n rest) v pre r d rd
      hr hwf.2 hwf.1 pe hm
    exact ⟨q, by simpa [leafPaths] using hq, h1, h2, h3⟩

theorem shred_levels_opt (n : SNode) (v : RVal) (pre : List String)
    (r d rd : Nat) (hr : r ≤ rd) (hwf : WF n = true)
    (pe : List String × Entry) (hm : pe ∈ shredNode pre n v r (d + 1) rd) :
    ∃ q ∈ leafPaths (.opt n), pe.1 = pre ++ q ∧
      pe.2.dlvl ≤ d + countOptRepOnPath (.opt n) q ∧
      pe.2.rlvl ≤ rd + countRepOnPath (.opt n) q := by
  obtain ⟨q, hq, h1, h2, h3⟩ := shred_levels n v pre r (d + 1) rd hr hwf pe hm
  exact ⟨q, by simpa [leafPaths] using hq, h1, by
    simp only [countOptRepOnPath]; omega, by
    simp only [countRepOnPath]; omega⟩

theorem shred_levelsF (fs : SFields) (v : RVal) (pre : List String)
    (r d rd : Nat) (hr : r ≤ rd) (hwf : WFf fs = true)
    (hn : nodupB (fieldNames fs) = true) (pe : List String × Entry)
    (hm : pe ∈ shredFieldsGo pre fs v r d rd) :
    ∃ q ∈ leafPathsF fs, pe.1 = pre ++ q ∧
      pe.2.dlvl ≤ d + countOptRepOnPath (.struct fs) q ∧
      pe.2.rlvl ≤ rd + countRepOnPath (.struct fs) q := by
  match fs with
  | .nil => simp [shredFieldsGo] at hm
  | .cons nm n rest =>
    rw [WFf, Bool.and_eq_true] at hwf
    rw [fieldNames, nodupB, Bool.and_eq_true] at hn
    rw [shredFieldsGo, List.mem_append] at hm
    rcases hm with hm | hm
    · obtain ⟨q, hq, h1, h2, h3⟩ := shred_levels n (lookupField v nm)
        (pre ++ [nm]) r d rd hr hwf.1 pe hm
      refine ⟨nm :: q, ?_, ?_, ?_, ?_⟩
      · rw [leafPathsF, List.mem_append]
        exact Or.inl (List.mem_map_of_mem _ hq)
      · rw [h1]
        simp
      · simpa [countOptRepOnPath, countOptRepOnPathF] using h2
      · simpa [countRepOnPath, countRepOnPathF] using h3
    · obtain ⟨q, hq, h1, h2, h3⟩ := shred_levelsF rest v pre r d rd hr
        hwf.2 hn.2 pe hm
      obtain ⟨nm2, p2, rfl, hmem2⟩ := leafPathsF_shape rest q hq
      have hne : nm ≠ nm2 := by
        intro hc
        rw [Bool.not_eq_true'] at hn
        have hcont := hn.1
        rw [hc] at hcont
        simp [List.contains_eq_any_beq] at hcont
        exact hcont hmem2
      refine ⟨nm2 :: p2, ?_, h1, ?_, ?_⟩
      · rw [leafPathsF, List.mem_append]
        exact Or.inr hq
      · simpa [countOptRepOnPath, countOptRepOnPathF, if_neg hne] using h2
      · simpa [countRepOnPath, countRepOnPathF, if_neg hne] using h3

end

/-- C3: for every leaf column of a built Schema and every ShreddedValue
the Shredder emits for it (for any input record), the entry's
definition level is at most the column's memoized maxDefinitionLevel
and its repetition level is at most the column's maxRepetitionLevel. -/
theorem claim_C3_level_invariants (u : UFields) (sch : Schema)
    (hb : build u = .ok sch) (v : RVal) (li : LeafInfo)
    (hli : li ∈ sch.leaves) (e : Entry)
    (he : e ∈ colOf (shredRecord sch.root v) li.path) :
    e.dlvl ≤ li.dLevelMax ∧ e.rlvl ≤ li.rLevelMax := by
  obtain ⟨hwf, hleaves⟩ := build_root_wf u sch hb
  rw [hleaves, collectLeaves_spec _ [] 0 0 hwf] at hli
  obtain ⟨q, hq, rfl⟩ := List.mem_map.mp hli
  have hmem := mem_colOf _ _ _ he
  rw [shredRecord] at hmem
  obtain ⟨q2, hq2, h1, h2, h3⟩ :=
    shred_levels sch.root v [] 0 0 0 (le_refl 0) hwf _ hmem
  have hqq : q = q2 := by
    have : ([] : List String) ++ q = [] ++ q2 := h1
    simpa using this
  subst hqq
  simp only [Nat.zero_add] at h2 h3
  exact ⟨by simpa using h2, by simpa using h3⟩

/-- C3 witness: the shredded entry (0, 2, "a") of the scenario's second
record respects the tags column's maxima (2, 1). -/
theorem claim_C3_witness :
    (⟨0, 2, some (.str "a")⟩ : Entry).dlvl ≤
        (⟨["tags"], 1, 2⟩ : LeafInfo).dLevelMax ∧
      (⟨0, 2, some (.str "a")⟩ : Entry).rlvl ≤
        (⟨["tags"], 1, 2⟩ : LeafInfo).rLevelMax :=
  claim_C3_level_invariants demoUser demoSchema (by decide) demoRec2
    ⟨["tags"], 1, 2⟩ (by decide) ⟨0, 2, some (.str "a")⟩ (by decide)

theorem addCols_nil (σ : Streams) : addCols [] σ = σ := by
  funext p
  rfl

theorem addCols_append (a b : List (List String × Entry)) (σ : Streams) :
    addCols (a ++ b) σ = addCols a (addCols b σ) := by
  funext p
  rw [addCols, addCols, addCols, colOf_append, List.append_assoc]

theorem popAt_addCols_single (p : List String) (e : Entry) (σ : Streams) :
    popAt p (addCols [(p, e)] σ) = σ := by
  funext q
  rw [popAt]
  split_ifs with hq
  · subst hq
    show (colOf [(q, e)] q ++ σ q).tail = σ q
    rw [show colOf [(q, e)] q = [e] from by rw [colOf, if_pos rfl]; rfl]
    rfl
  · show colOf [(p, e)] q ++ σ q = σ q
    rw [show colOf [(p, e)] q = [] from by
      rw [colOf, if_neg (fun hc => hq hc.symm)]; rfl]
    rfl

theorem colOf_eq_nil (l : List (List String × Entry)) (x : List String)
    (h : ∀ e : Entry, (x, e) ∉ l) : colOf l x = [] := by
  induction l with
  | nil => rfl
  | cons pe rest ih =>
    obtain ⟨q, e⟩ := pe
    rw [colOf]
    split_ifs with hq
    · subst hq
      exact absurd (List.mem_cons_self _ _) (fun hc => h e hc)
    · exact ih (fun e2 hc => h e2 (List.mem_cons_of_mem _ hc))

theorem shred_not_mem (s : SNode) (v : RVal) (pre : List String)
    (r d rd : Nat) (hr : r ≤ rd) (hwf : WF s = true) (x : List String)
    (hx : ∀ q ∈ leafPaths s, x ≠ pre ++ q) :
    colOf (shredNode pre s v r d rd) x = [] := by
  refine colOf_eq_nil _ _ (fun e hc => ?_)
  obtain ⟨q, hq, h1, _, _⟩ := shred_levels s v pre r d rd hr hwf (x, e) hc
  exact hx q hq h1

theorem shredF_not_mem (fs : SFields) (v : RVal) (pre : List String)
    (r d rd : Nat) (hr : r ≤ rd) (hwf : WFf fs = true)
    (hn : nodupB (fieldNames fs) = true) (x : List String)
    (hx : ∀ q ∈ leafPathsF fs, x ≠ pre ++ q) :
    colOf (shredFieldsGo pre fs v r d rd) x = [] := by
  refine colOf_eq_nil _ _ (fun e hc => ?_)
  obtain ⟨q, hq, h1, _, _⟩ := shred_levelsF fs v pre r d rd hr hwf hn (x, e) hc
  exact hx q hq h1

theorem popAll_absent (ps : List (List String)) (pre : List String)
    (ent : Entry) (σ : Streams) (hnd : ps.Nodup) :
    popAll (ps.map (fun p => pre ++ p))
      (addCols (ps.map (fun p => (pre ++ p, ent))) σ) = σ := by
  match ps with
  | [] =>
    rw [List.map_nil, List.map_nil, popAll, addCols_nil]
  | p :: rest =>
    rw [List.map_cons, List.map_cons, popAll]
    have hstep : popAt (pre ++ p)
        (addCols ((pre ++ p, ent) :: rest.map (fun q => (pre ++ q, ent))) σ) =
        addCols (rest.map (fun q => (pre ++ q, ent))) σ := by
      funext x
      rw [popAt]
      split_ifs with hx
      · subst hx
        show (colOf ((pre ++ p, ent) :: rest.map (fun q => (pre ++ q, ent)))
          (pre ++ p) ++ σ (pre ++ p)).tail = _
        rw [colOf, if_pos rfl,
          colOf_const_map_not_mem rest pre p ent (List.nodup_cons.mp hnd).1]
        show σ (pre ++ p) = addCols (rest.map (fun q => (pre ++ q, ent)))
          σ (pre ++ p)
        rw [addCols,
          colOf_const_map_not_mem rest pre p ent (List.nodup_cons.mp hnd).1]
        rfl
      · show colOf ((pre ++ p, ent) :: rest.map (fun q => (pre ++ q, ent)))
          x ++ σ x = _
        rw [colOf, if_neg (fun hc => hx hc.symm)]
        rfl
    rw [hstep]
    exact popAll_absent rest pre ent σ (List.nodup_cons.mp hnd).2

mutual

theorem firstLeaf_mem (s : SNode) (hwf : WF s = true) :
    firstLeaf s ∈ leafPaths s := by
  match s with
  | .leaf t => simp [firstLeaf, leafPaths]
  | .opt n => exact firstLeaf_mem n (by simpa [WF] using hwf)
  | .rep n => exact firstLeaf_mem n (by simpa [WF] using hwf)
  | .struct .nil => simp [WF] at hwf
  | .struct (.cons nm n rest) =>
    rw [WF, Bool.and_eq_true] at hwf
    rw [firstLeaf, leafPaths, leafPathsF, List.mem_append]
    refine Or.inl (List.mem_map_of_mem _ ?_)
    rw [WFf, Bool.and_eq_true] at hwf
    exact firstLeaf_mem n hwf.2.1

end

theorem agree_mono (fs : SFields) (gs : RFields) (v w : RVal)
    (h : agreeRF fs gs v = true)
    (hvw : ∀ nm ∈ fieldNames fs, lookupField w nm = lookupField v nm) :
    agreeRF fs gs w = true := by
  match fs, gs with
  | .nil, .nil => rfl
  | .nil, .cons _ _ _ => simp [agreeRF] at h
  | .cons _ _ _, .nil => simp [agreeRF] at h
  | .cons nm sn fr, .cons gm x gr =>
    rw [agreeRF, Bool.and_eq_true, Bool.and_eq_true] at h ⊢
    refine ⟨⟨h.1.1, ?_⟩, ?_⟩
    · rw [decide_eq_true_eq] at h ⊢
      rw [hvw nm (by simp [fieldNames])]
      exact h.1.2
    · exact agree_mono fr gr v w h.2
        (fun nm2 hnm2 => hvw nm2 (by simp [fieldNames, hnm2]))

theorem conf_names (fs : SFields) (gs : RFields)
    (h : confFields fs gs = true) :
    ∀ nm, nm ∉ fieldNames fs → lookupRF gs nm = .null := by
  match fs, gs with
  | .nil, .nil => intro nm _; rfl
  | .nil, .cons _ _ _ => simp [confFields] at h
  | .cons _ _ _, .nil => simp [confFields] at h
  | .cons nm sn fr, .cons gm x gr =>
    rw [confFields, Bool.and_eq_true, Bool.and_eq_true] at h
    intro nm2 hnm2
    have hne : gm ≠ nm2 := by
      intro hc
      apply hnm2
      rw [fieldNames, beq_iff_eq.mp h.1.1, hc]
      exact List.mem_cons_self _ _
    rw [lookupRF, if_neg hne]
    exact conf_names fr gr h.2 nm2 (fun hc => hnm2 (by simp [fieldNames, hc]))

theorem agree_of_conf (fs : SFields) (gs : RFields)
    (hc : confFields fs gs = true) (hn : nodupB (fieldNames fs) = true) :
    agreeRF fs gs (.obj gs) = true := by
  match fs, gs with
  | .nil, .nil => rfl
  | .nil, .cons _ _ _ => simp [confFields] at hc
  | .cons _ _ _, .nil => simp [confFields] at hc
  | .cons nm sn fr, .cons gm x gr =>
    rw [confFields, Bool.and_eq_true, Bool.and_eq_true] at hc
    rw [fieldNames, nodupB, Bool.and_eq_true] at hn
    have hnmgm : nm = gm := beq_iff_eq.mp hc.1.1
    rw [agreeRF, Bool.and_eq_true, Bool.and_eq_true]
    refine ⟨⟨hc.1.1, ?_⟩, ?_⟩
    · rw [decide_eq_true_eq, lookupField, lookupRF, if_pos hnmgm.symm]
    · refine agree_mono fr gr (.obj gr) (.obj (.cons gm x gr))
        (agree_of_conf fr gr hc.2 hn.2) ?_
      intro nm2 hnm2
      have hne : gm ≠ nm2 := by
        intro hceq
        rw [Bool.not_eq_true'] at hn
        have hcont := hn.1
        rw [hnmgm, hceq] at hcont
        simp [List.contains_eq_any_beq] at hcont
        exact hcont hnm2
      rw [lookupField, lookupField, lookupRF, if_neg hne]

mutual

theorem shred_head (s : SNode) (v : RVal) (pre : List String) (r d rd : Nat)
    (hr : r ≤ rd) (hwf : WF s = true) (hc : conf s v = true)
    (p : List String) (hp : p ∈ leafPaths s) :
    ∃ e l2, colOf (shredNode pre s v r d rd) (pre ++ p) = e :: l2 ∧
      e.rlvl = r ∧ d ≤ e.dlvl := by
  match s with
  | .leaf t =>
    have hp0 : p = [] := by simpa [leafPaths] using hp
    subst hp0
    refine ⟨⟨r, d, some v⟩, [], ?_, rfl, le_refl d⟩
    rw [show shredNode pre (.leaf t) v r d rd =
      [(pre, ⟨r, d, some v⟩)] from rfl]
    rw [colOf, if_pos (by simp)]
    rfl
  | .opt n =>
    rw [WF] at hwf
    have hnd := leafPaths_nodup n hwf
    have hp2 : p ∈ leafPaths n := by simpa [leafPaths] using hp
    match v, hc with
    | .null, _ =>
      refine ⟨⟨r, d, none⟩, [], ?_, rfl, le_refl d⟩
      rw [show shredNode pre (.opt n) .null r d rd =
        absentCols pre n r d from rfl]
      rw [colOf_absentCols n pre p r d hp2 hnd]
    | .int k, hc => exact shred_head_opt n (.int k) pre r d rd hr hwf hc p hp2 rfl
    | .dbl k, hc => exact shred_head_opt n (.dbl k) pre r d rd hr hwf hc p hp2 rfl
    | .bool b, hc => exact shred_head_opt n (.bool b) pre r d rd hr hwf hc p hp2 rfl
    | .str t, hc => exact shred_head_opt n (.str t) pre r d rd hr hwf hc p hp2 rfl
    | .list xs, hc =>
      exact shred_head_opt n (.list xs) pre r d rd hr hwf hc p hp2 rfl
    | .obj gs, hc =>
      exact shred_head_opt n (.obj gs) pre r d rd hr hwf hc p hp2 rfl
  | .rep n =>
    rw [WF] at hwf
    have hnd := leafPaths_nodup n hwf
    have hp2 : p ∈ leafPaths n := by simpa [leafPaths] using hp
    match v, hc with
    | .list .nil, _ =>
      refine ⟨⟨r, d, none⟩, [], ?_, rfl, le_refl d⟩
      rw [show shredNode pre (.rep n) (.list .nil) r d rd =
        absentCols pre n r d from rfl]
      rw [colOf_absentCols n pre p r d hp2 hnd]
    | .list (.cons x xs), hc =>
      have hcx : conf n x = true := by
        have h2 : (conf n x && allRList (fun y => conf n y) xs) = true := hc
        rw [Bool.and_eq_true] at h2
        exact h2.1
      obtain ⟨e, l2, heq, hre, hde⟩ :=
        shred_head n x pre r (d + 1) (rd + 1) (by omega) hwf hcx p hp2
      refine ⟨e, l2 ++ colOf (shredElemsWith
        (fun y => shredNode pre n y (rd + 1) (d + 1) (rd + 1)) xs)
        (pre ++ p), ?_, hre, by omega⟩
      rw [show shredNode pre (.rep n) (.list (.cons x xs)) r d rd =
        shredNode pre n x r (d + 1) (rd + 1) ++
          shredElemsWith (fun y => shredNode pre n y (rd + 1) (d + 1) (rd + 1)) xs
        from rfl]
      rw [colOf_append, heq]
      rfl
    | .null, hc => exact absurd (show (false : Bool) = true from hc) (by simp)
    | .int k, hc => exact absurd (show (false : Bool) = true from hc) (by simp)
    | .dbl k, hc => exact absurd (show (false : Bool) = true from hc) (by simp)
    | .bool b, hc => exact absurd (show (false : Bool) = true from hc) (by simp)
    | .str t, hc => exact absurd (show (false : Bool) = true from hc) (by simp)
    | .obj gs, hc => exact absurd (show (false : Bool) = true from hc) (by simp)
  | .struct .nil => simp [WF] at hwf
  | .struct (.cons nm n rest) =>
    rw [WF, Bool.and_eq_true] at hwf
    match v, hc with
    | .null, hc => exact absurd (show (false : Bool) = true from hc) (by simp)
    | .int k, hc => exact absurd (show (false : Bool) = true from hc) (by simp)
    | .dbl k, hc => exact absurd (show (false : Bool) = true from hc) (by simp)
    | .bool b, hc => exact absurd (show (false : Bool) = true from hc) (by simp)
    | .str t, hc => exact absurd (show (false : Bool) = true from hc) (by simp)
    | .list xs, hc => exact absurd (show (false : Bool) = true from hc) (by simp)
    | .obj gs, hc =>
      have hcf : confFields (.cons nm n rest) gs = true := hc
      have hagree := agree_of_conf (.cons nm n rest) gs hcf hwf.1
      exact shred_headF (.cons nm n rest) gs (.obj gs) pre r d rd hr
        hwf.2 hwf.1 hcf hagree p (by simpa [leafPaths] using hp)

theorem shred_head_opt (n : SNode) (v : RVal) (pre : List String)
    (r d rd : Nat) (hr : r ≤ rd) (hwf : WF n = true)
    (hc : conf n v = true) (p : List String) (hp : p ∈ leafPaths n)
    (hshred : shredNode pre (.opt n) v r d rd =
      shredNode pre n v r (d + 1) rd) :
    ∃ e l2, colOf (shredNode pre (.opt n) v r d rd) (pre ++ p) = e :: l2 ∧
      e.rlvl = r ∧ d ≤ e.dlvl := by
  rw [hshred]
  obtain ⟨e, l2, heq, hre, hde⟩ :=
    shred_head n v pre r (d + 1) rd hr hwf hc p hp
  exact ⟨e, l2, heq, hre, by omega⟩

theorem shred_headF (fs : SFields) (gs : RFields) (v : RVal)
    (pre : List String) (r d rd : Nat) (hr : r ≤ rd)
    (hwf : WFf fs = true) (hn : nodupB (fieldNames fs) = true)
    (hconf : confFields fs gs = true) (hagree : agreeRF fs gs v = true)
    (p : List String) (hp : p ∈ leafPathsF fs) :
    ∃ e l2, colOf (shredFieldsGo pre fs v r d rd) (pre ++ p) = e :: l2 ∧
      e.rlvl = r ∧ d ≤ e.dlvl := by
  match fs, gs with
  | .nil, _ => simp [leafPathsF] at hp
  | .cons nm n fr, .nil =>
    exact absurd (show (false : Bool) = true from hconf) (by simp)
  | .cons nm n fr, .cons gm x gr =>
    rw [confFields, Bool.and_eq_true, Bool.and_eq_true] at hconf
    rw [agreeRF, Bool.and_eq_true, Bool.and_eq_true] at hagree
    rw [WFf, Bool.and_eq_true] at hwf
    rw [fieldNames, nodupB, Bool.and_eq_true] at hn
    have hlk : lookupField v nm = x := decide_eq_true_eq.mp hagree.1.2
    rw [leafPathsF, List.mem_append] at hp
    rw [show shredFieldsGo pre (.cons nm n fr) v r d rd =
      shredNode (pre ++ [nm]) n (lookupField v nm) r d rd ++
        shredFieldsGo pre fr v r d rd from rfl]
    rcases hp with hp | hp
    · obtain ⟨q, hq, rfl⟩ := List.mem_map.mp hp
      have hcq : conf n (lookupField v nm) = true := by
        rw [hlk]
        exact hconf.1.2
      obtain ⟨e, l2, heq, hre, hde⟩ :=
        shred_head n (lookupField v nm) (pre ++ [nm]) r d rd hr hwf.1 hcq q hq
      refine ⟨e, l2 ++ colOf (shredFieldsGo pre fr v r d rd)
        (pre ++ (nm :: q)), ?_, hre, hde⟩
      rw [colOf_append]
      have hassoc : pre ++ (nm :: q) = (pre ++ [nm]) ++ q := by simp
      rw [hassoc, heq]
      rfl
    · obtain ⟨nm2, p2, hshape, hmem2⟩ := leafPathsF_shape fr p hp
      have hne : nm ≠ nm2 := by
        intro hceq
        rw [Bool.not_eq_true'] at hn
        have hcont := hn.1
        rw [hceq] at hcont
        simp [List.contains_eq_any_beq] at hcont
        exact hcont hmem2
      have hCnil : colOf (shredNode (pre ++ [nm]) n (lookupField v nm) r d rd)
          (pre ++ p) = [] := by
        refine shred_not_mem n (lookupField v nm) (pre ++ [nm]) r d rd hr
          hwf.1 (pre ++ p) (fun q hq hcq => ?_)
        rw [hshape] at hcq
        have : nm2 :: p2 = nm :: q := by
          have h2 : pre ++ (nm2 :: p2) = pre ++ (nm :: q) := by
            simpa using hcq
          exact List.append_cancel_left h2
        exact hne ((List.cons.injEq _ _ _ _ ▸ this).1.symm ▸ rfl)
      rw [colOf_append, hCnil, List.nil_append]
      exact shred_headF fr gr v pre r d rd hr hwf.2 hn.2 hconf.2 hagree.2 p hp

end

theorem elems_count (n : SNode) (xs : RList) (pre : List String)
    (d rd : Nat) (hwf : WF n = true) (hc : confList n xs = true)
    (p : List String) (hp : p ∈ leafPaths n) :
    lengthR xs ≤ (colOf (shredElemsWith
      (fun y => shredNode pre n y (rd + 1) (d + 1) (rd + 1)) xs)
      (pre ++ p)).length := by
  match xs with
  | .nil => simp [lengthR]
  | .cons y ys =>
    rw [confList, allRList, Bool.and_eq_true] at hc
    obtain ⟨e, l2, heq, _, _⟩ := shred_head n y pre (rd + 1) (d + 1) (rd + 1)
      (le_refl _) hwf hc.1 p hp
    rw [show shredElemsWith
      (fun z => shredNode pre n z (rd + 1) (d + 1) (rd + 1)) (.cons y ys) =
      shredNode pre n y (rd + 1) (d + 1) (rd + 1) ++
        shredElemsWith (fun z => shredNode pre n z (rd + 1) (d + 1) (rd + 1)) ys
      from rfl]
    rw [colOf_append, List.length_append, heq]
    have hrec := elems_count n ys pre d rd hwf (by
      rw [confList]
      exact hc.2) p hp
    rw [lengthR]
    simp only [List.length_cons]
    omega

theorem elems_streams_bound (n : SNode) (xs : RList) (pre : List String)
    (d rd : Nat) (σ : Streams) (hwf : WF n = true)
    (hc : confList n xs = true)
    (hσ : ∀ p ∈ leafPaths n, ∀ e l2, σ (pre ++ p) = e :: l2 → e.rlvl ≤ rd) :
    ∀ p ∈ leafPaths n, ∀ e l2,
      (addCols (shredElemsWith
        (fun y => shredNode pre n y (rd + 1) (d + 1) (rd + 1)) xs) σ)
        (pre ++ p) = e :: l2 → e.rlvl ≤ rd + 1 := by
  intro p hp e l2 he
  match xs with
  | .nil =>
    rw [show shredElemsWith
      (fun y => shredNode pre n y (rd + 1) (d + 1) (rd + 1)) RList.nil = []
      from rfl, addCols_nil] at he
    exact Nat.le_succ_of_le (hσ p hp e l2 he)
  | .cons y ys =>
    rw [confList, allRList, Bool.and_eq_true] at hc
    obtain ⟨e2, l3, heq, hre, _⟩ := shred_head n y pre (rd + 1) (d + 1)
      (rd + 1) (le_refl _) hwf hc.1 p hp
    rw [addCols] at he
    rw [show shredElemsWith
      (fun z => shredNode pre n z (rd + 1) (d + 1) (rd + 1)) (.cons y ys) =
      shredNode pre n y (rd + 1) (d + 1) (rd + 1) ++
        shredElemsWith (fun z => shredNode pre n z (rd + 1) (d + 1) (rd + 1)) ys
      from rfl] at he
    rw [colOf_append, heq] at he
    have : e = e2 := by
      have h2 := he
      simp only [List.cons_append, List.cons.injEq] at h2
      exact h2.1.symm
    rw [this, hre]

theorem assembleNode_leaf_cons (pre : List String) (t : PrimType)
    (d rd : Nat) (σ : Streams) (e : Entry) (l2 : List Entry)
    (h : σ pre = e :: l2) :
    assembleNode pre (.leaf t) d rd σ = (e.val.getD .null, popAt pre σ) := by
  rw [assembleNode, h]

theorem assembleNode_opt_cons (pre : List String) (n : SNode)
    (d rd : Nat) (σ : Streams) (e : Entry) (l2 : List Entry)
    (h : σ (pre ++ firstLeaf n) = e :: l2) :
    assembleNode pre (.opt n) d rd σ =
      if d < e.dlvl then assembleNode pre n (d + 1) rd σ
      else (.null, popAll ((leafPaths n).map (fun p => pre ++ p)) σ) := by
  rw [assembleNode, h]

theorem assembleNode_rep_cons (pre : List String) (n : SNode)
    (d rd : Nat) (σ : Streams) (e : Entry) (l2 : List Entry)
    (h : σ (pre ++ firstLeaf n) = e :: l2) :
    assembleNode pre (.rep n) d rd σ =
      if d < e.dlvl then
        (.list (.cons (assembleNode pre n (d + 1) (rd + 1) σ).1
          (assembleRepLoopWith (fun σ2 => assembleNode pre n (d + 1) (rd + 1) σ2)
            (pre ++ firstLeaf n) rd (l2.length + 1)
            (assembleNode pre n (d + 1) (rd + 1) σ).2).1),
         (assembleRepLoopWith (fun σ2 => assembleNode pre n (d + 1) (rd + 1) σ2)
            (pre ++ firstLeaf n) rd (l2.length + 1)
            (assembleNode pre n (d + 1) (rd + 1) σ).2).2)
      else (.list .nil, popAll ((leafPaths n).map (fun p => pre ++ p)) σ) := by
  rw [assembleNode, h]
  rfl

theorem assembleRepLoopWith_cons (f : Streams → RVal × Streams)
    (fl : List String) (rd fuel0 : Nat) (σ : Streams) (e : Entry)
    (l2 : List Entry) (h : σ fl = e :: l2) :
    assembleRepLoopWith f fl rd (fuel0 + 1) σ =
      if rd + 1 ≤ e.rlvl then
        (.cons (f σ).1 (assembleRepLoopWith f fl rd fuel0 (f σ).2).1,
         (assembleRepLoopWith f fl rd fuel0 (f σ).2).2)
      else (.nil, σ) := by
  rw [assembleRepLoopWith, h]

theorem assembleRepLoopWith_nil (f : Streams → RVal × Streams)
    (fl : List String) (rd fuel0 : Nat) (σ : Streams)
    (h : σ fl = []) :
    assembleRepLoopWith f fl rd (fuel0 + 1) σ = (.nil, σ) := by
  rw [assembleRepLoopWith, h]

mutual

/-- The central inverse lemma: assembling, in front of any
continuation streams whose next entries do not continue the current
repetition depth, exactly the entries a conformant value shredded to,
yields that value back and consumes exactly those entries. -/
theorem assemble_shred (s : SNode) (v : RVal) (pre : List String)
    (r d rd : Nat) (σ : Streams) (hr : r ≤ rd)
    (hwf : WF s = true) (hc : conf s v = true)
    (hσ : ∀ p ∈ leafPaths s, ∀ e l2, σ (pre ++ p) = e :: l2 → e.rlvl ≤ rd) :
    assembleNode pre s d rd (addCols (shredNode pre s v r d rd) σ) = (v, σ) := by
  match s with
  | .leaf t =>
    have h1 : (addCols (shredNode pre (.leaf t) v r d rd) σ) pre =
        ⟨r, d, some v⟩ :: σ pre := by
      rw [addCols, show shredNode pre (.leaf t) v r d rd =
        [(pre, ⟨r, d, some v⟩)] from rfl, colOf, if_pos rfl]
      rfl
    rw [assembleNode_leaf_cons pre t d rd _ _ _ h1, Prod.mk.injEq]
    exact ⟨rfl, popAt_addCols_single pre ⟨r, d, some v⟩ σ⟩
  | .opt n =>
    have hwf2 : WF n = true := hwf
    have hnd := leafPaths_nodup n hwf2
    have hfl := firstLeaf_mem n hwf2
    match v, hc with
    | .null, _ =>
      have h1 : (addCols (shredNode pre (.opt n) .null r d rd) σ)
          (pre ++ firstLeaf n) = ⟨r, d, none⟩ :: σ (pre ++ firstLeaf n) := by
        rw [addCols, show shredNode pre (.opt n) .null r d rd =
          absentCols pre n r d from rfl,
          colOf_absentCols n pre (firstLeaf n) r d hfl hnd]
        rfl
      rw [assembleNode_opt_cons pre n d rd _ _ _ h1]
      rw [if_neg (by simp)]
      rw [Prod.mk.injEq]
      exact ⟨rfl, popAll_absent (leafPaths n) pre ⟨r, d, none⟩ σ hnd⟩
    | .int k, hc =>
      exact assemble_shred_optP n (.int k) pre r d rd σ hr hwf2 hc hσ rfl
    | .dbl k, hc =>
      exact assemble_shred_optP n (.dbl k) pre r d rd σ hr hwf2 hc hσ rfl
    | .bool b, hc =>
      exact assemble_shred_optP n (.bool b) pre r d rd σ hr hwf2 hc hσ rfl
    | .str t, hc =>
      exact assemble_shred_optP n (.str t) pre r d rd σ hr hwf2 hc hσ rfl
    | .list xs, hc =>
      exact assemble_shred_optP n (.list xs) pre r d rd σ hr hwf2 hc hσ rfl
    | .obj gs, hc =>
      exact assemble_shred_optP n (.obj gs) pre r d rd σ hr hwf2 hc hσ rfl
  | .rep n =>
    have hwf2 : WF n = true := hwf
    have hnd := leafPaths_nodup n hwf2
    have hfl := firstLeaf_mem n hwf2
    match v, hc with
    | .list .nil, _ =>
      have h1 : (addCols (shredNode pre (.rep n) (.list .nil) r d rd) σ)
          (pre ++ firstLeaf n) = ⟨r, d, none⟩ :: σ (pre ++ firstLeaf n) := by
        rw [addCols, show shredNode pre (.rep n) (.list .nil) r d rd =
          absentCols pre n r d from rfl,
          colOf_absentCols n pre (firstLeaf n) r d hfl hnd]
        rfl
      rw [assembleNode_rep_cons pre n d rd _ _ _ h1]
      rw [if_neg (by simp)]
      rw [Prod.mk.injEq]
      exact ⟨rfl, popAll_absent (leafPaths n) pre ⟨r, d, none⟩ σ hnd⟩
    | .list (.cons x xs), hc =>
      have hcx : conf n x = true := by
        have h2 : (conf n x && allRList (fun y => conf n y) xs) = true := hc
        rw [Bool.and_eq_true] at h2
        exact h2.1
      have hcxs : confList n xs = true := by
        have h2 : (conf n x && allRList (fun y => conf n y) xs) = true := hc
        rw [Bool.and_eq_true] at h2
        rw [confList]
        exact h2.2
      obtain ⟨e, l2, heq, hre, hde⟩ :=
        shred_head n x pre r (d + 1) (rd + 1) (by omega) hwf2 hcx
          (firstLeaf n) hfl
      rw [show shredNode pre (.rep n) (.list (.cons x xs)) r d rd =
        shredNode pre n x r (d + 1) (rd + 1) ++
          shredElemsWith (fun y => shredNode pre n y (rd + 1) (d + 1) (rd + 1)) xs
        from rfl, addCols_append]
      have h1 : (addCols (shredNode pre n x r (d + 1) (rd + 1))
          (addCols (shredElemsWith
            (fun y => shredNode pre n y (rd + 1) (d + 1) (rd + 1)) xs) σ))
          (pre ++ firstLeaf n) =
          e :: (l2 ++ (addCols (shredElemsWith
            (fun y => shredNode pre n y (rd + 1) (d + 1) (rd + 1)) xs) σ)
            (pre ++ firstLeaf n)) := by
        rw [addCols, heq]
        rfl
      rw [assembleNode_rep_cons pre n d rd _ _ _ h1]
      rw [if_pos (by omega)]
      have hσB := elems_streams_bound n xs pre d rd σ hwf2 hcxs hσ
      have hhd := assemble_shred n x pre r (d + 1) (rd + 1)
        (addCols (shredElemsWith
          (fun y => shredNode pre n y (rd + 1) (d + 1) (rd + 1)) xs) σ)
        (by omega) hwf2 hcx hσB
      have h5 := elems_count n xs pre d rd hwf2 hcxs (firstLeaf n) hfl
      have hfuel : lengthR xs ≤ l2.length + 1 +
          ((addCols (shredElemsWith
            (fun y => shredNode pre n y (rd + 1) (d + 1) (rd + 1)) xs) σ)
            (pre ++ firstLeaf n)).length -
          (l2.length + 1) := by
        rw [addCols, List.length_append]
        omega
      have htl := assemble_shred_loop n xs pre d rd
        ((l2 ++ (addCols (shredElemsWith
          (fun y => shredNode pre n y (rd + 1) (d + 1) (rd + 1)) xs) σ)
          (pre ++ firstLeaf n)).length + 1) σ hwf2 hcxs hσ
        (by
          rw [List.length_append, addCols, List.length_append]
          have := h5
          omega)
      simp only [hhd]
      simp only [htl]
  | .struct .nil => simp [WF] at hwf
  | .struct (.cons nm n rest) =>
    have hwfS : WF (.struct (.cons nm n rest)) = true := hwf
    rw [WF, Bool.and_eq_true] at hwfS
    match v, hc with
    | .null, hc => exact absurd (show (false : Bool) = true from hc) (by simp)
    | .int k, hc => exact absurd (show (false : Bool) = true from hc) (by simp)
    | .dbl k, hc => exact absurd (show (false : Bool) = true from hc) (by simp)
    | .bool b, hc => exact absurd (show (false : Bool) = true from hc) (by simp)
    | .str t, hc => exact absurd (show (false : Bool) = true from hc) (by simp)
    | .list xs, hc =>
      exact absurd (show (false : Bool) = true from hc) (by simp)
    | .obj gs, hc =>
      have hcf : confFields (.cons nm n rest) gs = true := hc
      have hagree := agree_of_conf (.cons nm n rest) gs hcf hwfS.1
      have hF := assemble_shredF (.cons nm n rest) gs (.obj gs) pre r d rd σ
        hr hwfS.2 hwfS.1 hcf hagree hσ
      rw [assembleNode]
      rw [show shredNode pre (.struct (.cons nm n rest)) (.obj gs) r d rd =
        shredFieldsGo pre (.cons nm n rest) (.obj gs) r d rd from rfl]
      simp only [hF]

/-- The OPTIONAL-present case of the inverse lemma, shared by every
non-null value constructor. -/
theorem assemble_shred_optP (n : SNode) (v : RVal) (pre : List String)
    (r d rd : Nat) (σ : Streams) (hr : r ≤ rd) (hwf : WF n = true)
    (hc : conf n v = true)
    (hσ : ∀ p ∈ leafPaths n, ∀ e l2, σ (pre ++ p) = e :: l2 → e.rlvl ≤ rd)
    (hshred : shredNode pre (.opt n) v r d rd =
      shredNode pre n v r (d + 1) rd) :
    assembleNode pre (.opt n) d rd
      (addCols (shredNode pre (.opt n) v r d rd) σ) = (v, σ) := by
  rw [hshred]
  obtain ⟨e, l2, heq, hre, hde⟩ :=
    shred_head n v pre r (d + 1) rd hr hwf hc (firstLeaf n)
      (firstLeaf_mem n hwf)
  have h1 : (addCols (shredNode pre n v r (d + 1) rd) σ)
      (pre ++ firstLeaf n) =
      e :: (l2 ++ σ (pre ++ firstLeaf n)) := by
    rw [addCols, heq]
    rfl
  rw [assembleNode_opt_cons pre n d rd _ _ _ h1]
  rw [if_pos (by omega)]
  exact assemble_shred n v pre r (d + 1) rd σ hr hwf hc hσ

/-- The repeated-group tail loop reads back exactly the remaining
shredded elements and stops at the continuation. -/
theorem assemble_shred_loop (n : SNode) (xs : RList) (pre : List String)
    (d rd fuel : Nat) (σ : Streams)
    (hwf : WF n = true) (hc : confList n xs = true)
    (hσ : ∀ p ∈ leafPaths n, ∀ e l2, σ (pre ++ p) = e :: l2 → e.rlvl ≤ rd)
    (hfuel : lengthR xs ≤ fuel) :
    assembleRepLoopWith (fun σ2 => assembleNode pre n (d + 1) (rd + 1) σ2)
      (pre ++ firstLeaf n) rd fuel
      (addCols (shredElemsWith
        (fun y => shredNode pre n y (rd + 1) (d + 1) (rd + 1)) xs) σ) =
      (xs, σ) := by
  match xs with
  | .nil =>
    rw [show shredElemsWith
      (fun y => shredNode pre n y (rd + 1) (d + 1) (rd + 1)) RList.nil = []
      from rfl, addCols_nil]
    match fuel with
    | 0 => rfl
    | fuel0 + 1 =>
      cases hsfl : σ (pre ++ firstLeaf n) with
      | nil => exact assembleRepLoopWith_nil _ _ rd fuel0 σ hsfl
      | cons e l2 =>
        rw [assembleRepLoopWith_cons _ _ rd fuel0 σ e l2 hsfl]
        have hb := hσ (firstLeaf n) (firstLeaf_mem n hwf) e l2 hsfl
        rw [if_neg (by omega)]
  | .cons y ys =>
    match fuel with
    | 0 =>
      rw [lengthR] at hfuel
      omega
    | fuel0 + 1 =>
      have hcy : conf n y = true := by
        have h2 : (conf n y && allRList (fun z => conf n z) ys) = true := hc
        rw [Bool.and_eq_true] at h2
        exact h2.1
      have hcys : confList n ys = true := by
        have h2 : (conf n y && allRList (fun z => conf n z) ys) = true := hc
        rw [Bool.and_eq_true] at h2
        rw [confList]
        exact h2.2
      obtain ⟨e, l2, heq, hre, hde⟩ := shred_head n y pre (rd + 1) (d + 1)
        (rd + 1) (le_refl _) hwf hcy (firstLeaf n) (firstLeaf_mem n hwf)
      rw [show shredElemsWith
        (fun z => shredNode pre n z (rd + 1) (d + 1) (rd + 1)) (.cons y ys) =
        shredNode pre n y (rd + 1) (d + 1) (rd + 1) ++
          shredElemsWith (fun z => shredNode pre n z (rd + 1) (d + 1) (rd + 1)) ys
        from rfl, addCols_append]
      have h1 : (addCols (shredNode pre n y (rd + 1) (d + 1) (rd + 1))
          (addCols (shredElemsWith
            (fun z => shredNode pre n z (rd + 1) (d + 1) (rd + 1)) ys) σ))
          (pre ++ firstLeaf n) =
          e :: (l2 ++ (addCols (shredElemsWith
            (fun z => shredNode pre n z (rd + 1) (d + 1) (rd + 1)) ys) σ)
            (pre ++ firstLeaf n)) := by
        rw [addCols, heq]
        rfl
      rw [assembleRepLoopWith_cons _ _ rd fuel0 _ e _ h1]
      rw [if_pos (by omega)]
      have hσB := elems_streams_bound n ys pre d rd σ hwf hcys hσ
      have hhd := assemble_shred n y pre (rd + 1) (d + 1) (rd + 1)
        (addCols (shredElemsWith
          (fun z => shredNode pre n z (rd + 1) (d + 1) (rd + 1)) ys) σ)
        (le_refl _) hwf hcy hσB
      have htl := assemble_shred_loop n ys pre d rd fuel0 σ hwf hcys hσ
        (by rw [lengthR] at hfuel; omega)
      simp only [hhd]
      simp only [htl]

/-- The struct-fields case of the inverse lemma: each declared field
reads back exactly its own column entries since sibling subtrees
occupy disjoint columns. -/
theorem assemble_shredF (fs : SFields) (gs : RFields) (v : RVal)
    (pre : List String) (r d rd : Nat) (σ : Streams) (hr : r ≤ rd)
    (hwf : WFf fs = true) (hn : nodupB (fieldNames fs) = true)
    (hconf : confFields fs gs = true) (hagree : agreeRF fs gs v = true)
    (hσ : ∀ p ∈ leafPathsF fs, ∀ e l2, σ (pre ++ p) = e :: l2 → e.rlvl ≤ rd) :
    assembleFields pre fs d rd
      (addCols (shredFieldsGo pre fs v r d rd) σ) = (gs, σ) := by
  match fs, gs with
  | .nil, .nil =>
    rw [show shredFieldsGo pre .nil v r d rd = [] from rfl, addCols_nil]
    rfl
  | .nil, .cons _ _ _ =>
    exact absurd (show (false : Bool) = true from hconf) (by simp)
  | .cons _ _ _, .nil =>
    exact absurd (show (false : Bool) = true from hconf) (by simp)
  | .cons nm n fr, .cons gm x gr =>
    rw [confFields, Bool.and_eq_true, Bool.and_eq_true] at hconf
    rw [agreeRF, Bool.and_eq_true, Bool.and_eq_true] at hagree
    have hwfC : WFf (.cons nm n fr) = true := hwf
    rw [WFf, Bool.and_eq_true] at hwfC
    have hnC : nodupB (fieldNames (.cons nm n fr)) = true := hn
    rw [fieldNames, nodupB, Bool.and_eq_true] at hnC
    have hnmgm : nm = gm := beq_iff_eq.mp hconf.1.1
    have hlk : lookupField v nm = x := decide_eq_true_eq.mp hagree.1.2
    rw [show shredFieldsGo pre (.cons nm n fr) v r d rd =
      shredNode (pre ++ [nm]) n (lookupField v nm) r d rd ++
        shredFieldsGo pre fr v r d rd from rfl, hlk, addCols_append]
    rw [assembleFields]
    have hσC : ∀ p ∈ leafPaths n, ∀ e l2,
        (addCols (shredFieldsGo pre fr v r d rd) σ) ((pre ++ [nm]) ++ p) =
          e :: l2 → e.rlvl ≤ rd := by
      intro p hp e l2 he
      have hRnil : colOf (shredFieldsGo pre fr v r d rd)
          ((pre ++ [nm]) ++ p) = [] := by
        refine shredF_not_mem fr v pre r d rd hr hwfC.2 hnC.2 _
          (fun q hq hcq => ?_)
        obtain ⟨nm2, p2, hshape, hmem2⟩ := leafPathsF_shape fr q hq
        rw [hshape] at hcq
        have hinj : nm :: p = nm2 :: p2 := by
          have h2 : pre ++ (nm :: p) = pre ++ (nm2 :: p2) := by
            rw [← hcq]
            simp
          exact List.append_cancel_left h2
        have hne : nm ≠ nm2 := by
          intro hceq
          rw [Bool.not_eq_true'] at hnC
          have hcont := hnC.1
          rw [hceq] at hcont
          simp [List.contains_eq_any_beq] at hcont
          exact hcont hmem2
        exact hne (List.cons.injEq _ _ _ _ ▸ hinj).1
      rw [addCols, hRnil, List.nil_append] at he
      have hassoc : (pre ++ [nm]) ++ p = pre ++ (nm :: p) := by simp
      rw [hassoc] at he
      refine hσ (nm :: p) ?_ e l2 he
      rw [leafPathsF, List.mem_append]
      exact Or.inl (List.mem_map_of_mem _ hp)
    have hhd := assemble_shred n x (pre ++ [nm]) r d rd
      (addCols (shredFieldsGo pre fr v r d rd) σ) hr hwfC.1 hconf.1.2 hσC
    simp only [hhd]
    have hσfr : ∀ p ∈ leafPathsF fr, ∀ e l2,
        σ (pre ++ p) = e :: l2 → e.rlvl ≤ rd := by
      intro p hp e l2 he
      refine hσ p ?_ e l2 he
      rw [leafPathsF, List.mem_append]
      exact Or.inr hp
    have htl := assemble_shredF fr gr v pre r d rd σ hr hwfC.2 hnC.2
      hconf.2 hagree.2 hσfr
    simp only [htl]
    rw [hnmgm]

end

/-- C1: for every valid schema (in particular the root of every built
Schema) and every schema-conformant record R, assembling the columns
produced by shredding R returns exactly R — deep equality, with nulls
staying null, empty collections staying empty and distinguished from
absent ones — and consumes the streams completely. -/
theorem claim_C1_round_trip :
    (∀ (s : SNode) (v : RVal), WF s = true → conf s v = true →
      readRecord s (addCols (shredRecord s v) emptyStreams) =
        (v, emptyStreams)) ∧
    (∀ (u : UFields) (sch : Schema), build u = .ok sch →
      WF sch.root = true) := by
  constructor
  · intro s v hwf hc
    rw [readRecord, shredRecord]
    refine assemble_shred s v [] 0 0 0 emptyStreams (le_refl 0) hwf hc ?_
    intro p _ e l2 he
    simp [emptyStreams] at he
  · intro u sch hb
    exact (build_root_wf u sch hb).1

/-- C1 witness: the scenario record with a null-distinct and
empty-distinct tags field round-trips exactly. -/
theorem claim_C1_witness :
    readRecord demoRoot (addCols (shredRecord demoRoot demoRec2) emptyStreams) =
      (demoRec2, emptyStreams) :=
  claim_C1_round_trip.1 demoRoot demoRec2 (by decide) (by decide)

end Parquet
